import Mathlib

/-!
Verification development for the DRF sorter (`src/master/drf_sorter.cpp`)
and the executor lifecycle records (`src/slave/slave.hpp`) of the
incubator-mesos repository.

The resource algebra (`common/resources.hpp`) is not part of the sources,
so it is modelled from the specification (§3, §4.1): a `Resources` bundle
is a collection of named, typed values (scalar / ranges / set) with
componentwise arithmetic per (name, type).  Scalars are modelled as
rationals (the spec calls them non-negative reals); ranges and sets are
modelled as multisets, which satisfies every invariant the spec states
about the algebra (commutative and associative addition,
`resources − resources == empty`).
-/

namespace Mesos

/-- Modelled from the spec: the value of a resource is one of
scalar / ranges / set (§3).  Scalars are rationals; ranges and string
sets are multisets. -/
inductive RValue where
  | scalar (v : ℚ)
  | ranges (v : Multiset ℤ)
  | strSet (v : Multiset String)
deriving DecidableEq

/-- The three resource types (`Value::SCALAR` etc.). -/
inductive RKind where
  | SCALAR
  | RANGES
  | SET
deriving DecidableEq

def RValue.kind : RValue → RKind
  | .scalar _ => .SCALAR
  | .ranges _ => .RANGES
  | .strSet _ => .SET

/-- Modelled from the spec: componentwise addition of two values of the
same type.  On mismatched types (never reached through `radd`) the left
value is kept. -/
def RValue.combine : RValue → RValue → RValue
  | .scalar a, .scalar b => .scalar (a + b)
  | .ranges a, .ranges b => .ranges (a + b)
  | .strSet a, .strSet b => .strSet (a + b)
  | a, _ => a

/-- Modelled from the spec: componentwise subtraction.  Scalar
subtraction is plain subtraction (the sorter's `remove` does not clamp,
spec §9(b)); multiset subtraction is multiset difference. -/
def RValue.subv : RValue → RValue → RValue
  | .scalar a, .scalar b => .scalar (a - b)
  | .ranges a, .ranges b => .ranges (a - b)
  | .strSet a, .strSet b => .strSet (a - b)
  | a, _ => a

/-- The zero value of each resource type. -/
def RKind.zero : RKind → RValue
  | .SCALAR => .scalar 0
  | .RANGES => .ranges 0
  | .SET => .strSet 0

/-- A named resource (`Resource`). -/
structure Resource where
  name : String
  value : RValue
deriving DecidableEq

/-- A `Resources` bundle: a list of named typed resources. -/
abbrev Resources := List Resource

/-- Two resources describe the same component: same name, same type. -/
def sameKey (a b : Resource) : Bool :=
  a.name == b.name && a.value.kind == b.value.kind

/-- Modelled from the spec: merge one resource into a bundle,
componentwise per (name, type); a missing component is appended. -/
def addOne (rs : Resources) (r : Resource) : Resources :=
  match rs with
  | [] => [r]
  | x :: xs =>
      if sameKey x r then { x with value := x.value.combine r.value } :: xs
      else x :: addOne xs r

/-- Modelled from the spec: subtract one resource from a bundle,
componentwise; subtracting a missing component is a no-op. -/
def subOne (rs : Resources) (r : Resource) : Resources :=
  match rs with
  | [] => []
  | x :: xs =>
      if sameKey x r then { x with value := x.value.subv r.value } :: xs
      else x :: subOne xs r

/-- Bundle addition (`Resources::operator+=`), modelled from the spec. -/
def radd (a b : Resources) : Resources := b.foldl addOne a

/-- Bundle subtraction (`Resources::operator-=`), modelled from the spec. -/
def rsub (a b : Resources) : Resources := b.foldl subOne a

/-- Whether a resource occupies the component (n, k). -/
def keyMatch (x : Resource) (n : String) (k : RKind) : Bool :=
  x.name == n && x.value.kind == k

/-- The component of a bundle at (name, kind), or the kind's zero. -/
def lookupV (rs : Resources) (n : String) (k : RKind) : RValue :=
  match rs.find? (fun x => keyMatch x n k) with
  | some x => x.value
  | none => k.zero

/-- `Resources::get(name, none)` for a scalar: the scalar value recorded
under `n`, defaulting to 0.  Modelled from the spec (§4.1). -/
def getScalar (rs : Resources) (n : String) : ℚ :=
  match lookupV rs n .SCALAR with
  | .scalar v => v
  | _ => 0

/-- Whether the bundle has a component matching `r`'s (name, type). -/
def keyPresent (rs : Resources) (r : Resource) : Bool :=
  rs.any (fun x => sameKey x r)

/-- Pointwise equality of two bundles: equal value at every
(name, type) component. -/
def pweq (a b : Resources) : Prop :=
  ∀ (n : String) (k : RKind), lookupV a n k = lookupV b n k

/-! ### The DRF sorter (`src/master/drf_sorter.cpp`) -/

/-- An entry of the sorted set (`struct Client`). -/
structure Client where
  name : String
  share : ℚ
deriving DecidableEq

/-- Lexicographic comparison of character lists by code point, the
order `std::string::operator<` computes. -/
def strLtB : List Char → List Char → Bool
  | _, [] => false
  | [], _ :: _ => true
  | a :: as, b :: bs =>
      if a.val.toNat < b.val.toNat then true
      else if b.val.toNat < a.val.toNat then false
      else strLtB as bs

/-- `name1 < name2` on client names (`std::string::operator<`). -/
def strLt (a b : String) : Bool := strLtB a.data b.data

/-- `DRFComparator::operator()`, drf_sorter.cpp:33-41. -/
def cltb (c1 c2 : Client) : Bool :=
  if c1.share = c2.share then strLt c1.name c2.name
  else c1.share < c2.share

/-- `std::set` insertion under `DRFComparator` on a comparator-sorted
list: insert in order, no-op if an equivalent element is present. -/
def setInsert (cs : List Client) (c : Client) : List Client :=
  match cs with
  | [] => [c]
  | x :: xs =>
      if cltb c x then c :: x :: xs
      else if cltb x c then x :: setInsert xs c
      else x :: xs

/-- Erase the first element with the given name (the element
`DRFSorter::find` returns), if any. -/
def eraseFirstName (cs : List Client) (name : String) : List Client :=
  match cs with
  | [] => []
  | x :: xs => if x.name == name then xs else x :: eraseFirstName xs name

/-- `DRFSorter::find`, drf_sorter.cpp:218-228: first entry of the set
with the given name (iterating in set order), or none (`end()`). -/
def findClient (cs : List Client) (name : String) : Option Client :=
  cs.find? (fun c => c.name == name)

/-- The sorter state (`class DRFSorter`): the comparator-sorted client
set, the allocations hashmap, the total pool and the dirty bit.  The
hashmap is modelled as an association list with distinct keys. -/
structure DRFSorter where
  clients : List Client
  allocations : List (String × Resources)
  resources : Resources
  dirty : Bool
deriving DecidableEq

/-- Lookup in the allocations map; a missing key yields the empty bundle
(`hashmap::operator[]` default-constructs). -/
def alookupD (m : List (String × Resources)) (k : String) : Resources :=
  match m.find? (fun p => p.1 == k) with
  | some p => p.2
  | none => []

/-- Key membership in the allocations map (`hashmap::contains`). -/
def ahasKey (m : List (String × Resources)) (k : String) : Bool :=
  m.any (fun p => p.1 == k)

/-- Insert-or-update a key of the allocations map. -/
def aset (m : List (String × Resources)) (k : String) (v : Resources) :
    List (String × Resources) :=
  match m with
  | [] => [(k, v)]
  | (k', v') :: xs => if k' == k then (k, v) :: xs else (k', v') :: aset xs k v

/-- Erase a key of the allocations map (`hashmap::erase`). -/
def aerase (m : List (String × Resources)) (k : String) :
    List (String × Resources) :=
  match m with
  | [] => []
  | (k', v') :: xs => if k' == k then xs else (k', v') :: aerase xs k

/-- The empty sorter (`DRFSorter` constructor; the spec's dirty flag
starts clear, §3). -/
def DRFSorter.empty : DRFSorter := ⟨[], [], [], false⟩

/-- The share computation factored over the two pieces of state it
reads: the total pool and the client's allocation.  Follows
`DRFSorter::calculateShare`, drf_sorter.cpp:192-215: fold over the total
pool; every scalar resource with strictly positive total contributes
`allocation.get(name, 0) / total`; non-scalars are skipped. -/
def shareStep (alloc : Resources) (share : ℚ) (r : Resource) : ℚ :=
  match r.value with
  | .scalar t => if 0 < t then max share (getScalar alloc r.name / t) else share
  | _ => share

def shareOf (total alloc : Resources) : ℚ :=
  total.foldl (shareStep alloc) 0

/-- `DRFSorter::calculateShare`, drf_sorter.cpp:192-215. -/
def DRFSorter.calculateShare (s : DRFSorter) (name : String) : ℚ :=
  shareOf s.resources (alookupD s.allocations name)

/-- `DRFSorter::add(const std::string&)`, drf_sorter.cpp:44-52: insert a
`(name, 0)` entry into the set and reset `allocations[name]` to the
empty bundle (`Resources::parse("")`). -/
def DRFSorter.add (s : DRFSorter) (name : String) : DRFSorter :=
  { s with clients := setInsert s.clients ⟨name, 0⟩,
           allocations := aset s.allocations name [] }

/-- `DRFSorter::remove(const std::string&)`, drf_sorter.cpp:55-64. -/
def DRFSorter.remove (s : DRFSorter) (name : String) : DRFSorter :=
  { s with clients := eraseFirstName s.clients name,
           allocations := aerase s.allocations name }

/-- `DRFSorter::activate`, drf_sorter.cpp:67-75.  `none` models the
`CHECK(allocations.contains(name))` failure. -/
def DRFSorter.activate (s : DRFSorter) (name : String) : Option DRFSorter :=
  if ahasKey s.allocations name then
    some { s with clients := setInsert s.clients ⟨name, s.calculateShare name⟩ }
  else none

/-- `DRFSorter::deactivate`, drf_sorter.cpp:78-85. -/
def DRFSorter.deactivate (s : DRFSorter) (name : String) : DRFSorter :=
  { s with clients := eraseFirstName s.clients name }

/-- `DRFSorter::update`, drf_sorter.cpp:179-189.  The source erases
`find(name)` unguarded; when the name has no entry this erases `end()`,
which is undefined behaviour, modelled as `none`. -/
def DRFSorter.update (s : DRFSorter) (name : String) : Option DRFSorter :=
  match findClient s.clients name with
  | none => none
  | some _ =>
      some { s with
             clients := setInsert (eraseFirstName s.clients name)
                          ⟨name, s.calculateShare name⟩ }

/-- `DRFSorter::allocated`, drf_sorter.cpp:88-100:
`allocations[name] += resources`, then `update(name)` unless dirty. -/
def DRFSorter.allocated (s : DRFSorter) (name : String) (r : Resources) :
    Option DRFSorter :=
  let s' := { s with
              allocations := aset s.allocations name
                               (radd (alookupD s.allocations name) r) }
  if s'.dirty then some s' else s'.update name

/-- `DRFSorter::allocation`, drf_sorter.cpp:103-107 (`allocations[name]`;
the `operator[]` default is the empty bundle). -/
def DRFSorter.allocation (s : DRFSorter) (name : String) : Resources :=
  alookupD s.allocations name

/-- `DRFSorter::unallocated`, drf_sorter.cpp:110-119. -/
def DRFSorter.unallocated (s : DRFSorter) (name : String) (r : Resources) :
    Option DRFSorter :=
  let s' := { s with
              allocations := aset s.allocations name
                               (rsub (alookupD s.allocations name) r) }
  if s'.dirty then some s' else s'.update name

/-- `DRFSorter::add(const Resources&)`, drf_sorter.cpp:122-131. -/
def DRFSorter.addResources (s : DRFSorter) (r : Resources) : DRFSorter :=
  { s with resources := radd s.resources r, dirty := true }

/-- `DRFSorter::remove(const Resources&)`, drf_sorter.cpp:134-138: the
pool is updated unconditionally (no underflow check) and dirty is set. -/
def DRFSorter.removeResources (s : DRFSorter) (r : Resources) : DRFSorter :=
  { s with resources := rsub s.resources r, dirty := true }

/-- `DRFSorter::sort`, drf_sorter.cpp:141-165: when dirty, rebuild the
set with freshly computed shares.  Note: the source does not reset
`dirty` after the rebuild.  Returns the names in set order together with
the resulting state. -/
def DRFSorter.sort (s : DRFSorter) : List String × DRFSorter :=
  let s' :=
    if s.dirty then
      { s with clients :=
        s.clients.foldl (fun t c => setInsert t ⟨c.name, s.calculateShare c.name⟩) [] }
    else s
  (s'.clients.map Client.name, s')

/-- `DRFSorter::contains`, drf_sorter.cpp:168-171. -/
def DRFSorter.contains (s : DRFSorter) (name : String) : Bool :=
  ahasKey s.allocations name

/-- `DRFSorter::count`, drf_sorter.cpp:174-177. -/
def DRFSorter.count (s : DRFSorter) : Nat :=
  s.allocations.length

/-- The names currently in the sorted set, in set order. -/
def activeNames (s : DRFSorter) : List String :=
  s.clients.map Client.name

/-! ### Spec-side definitions (written from the spec's words, §4.2) -/

/-- The scalar value carried by a resource (0 for non-scalars). -/
def scalarValue (r : Resource) : ℚ :=
  match r.value with
  | .scalar v => v
  | _ => 0

/-- Whether a resource is a scalar with strictly positive value. -/
def isPosScalar (r : Resource) : Bool :=
  match r.value with
  | .scalar v => decide (0 < v)
  | _ => false

/-- The spec's share definition (§4.2): the maximum, over the scalar
resources `r` of the total pool with strictly positive total, of
`allocations[c].scalar(r.name, 0) / total.scalar(r)`; non-scalar
resources contribute nothing; the maximum of no terms is 0. -/
def specShare (s : DRFSorter) (name : String) : ℚ :=
  ((s.resources.filter isPosScalar).map
      (fun r => getScalar (s.allocation name) r.name / scalarValue r)).foldr max 0

/-- The spec's client ordering on names (§4.2): share ascending, ties
broken by name ascending. -/
def keyLE (s : DRFSorter) (a b : String) : Prop :=
  specShare s a < specShare s b ∨ (specShare s a = specShare s b ∧ a ≤ b)

instance (s : DRFSorter) : DecidableRel (keyLE s) := fun a b => by
  unfold keyLE; infer_instance

/-- The spec-side result of `sort()`: the active client names ordered by
(share, name). -/
def specSortedNames (s : DRFSorter) : List String :=
  List.insertionSort (keyLE s) (activeNames s)

/-! ### Well-formedness of a sorter state -/

/-- The sorted set holds no two entries with the same name. -/
def NodupNames (cs : List Client) : Prop :=
  (cs.map Client.name).Nodup

/-- The client list is strictly sorted under the comparator. -/
def SortedClients (cs : List Client) : Prop :=
  cs.Pairwise (fun a b => cltb a b = true)

/-- Every active client's recorded share equals `calculateShare`. -/
def SharesAccurate (s : DRFSorter) : Prop :=
  ∀ c ∈ s.clients, c.share = s.calculateShare c.name

/-- Well-formed sorter state: set sorted and duplicate-free, every
sorted-set entry backed by an allocations key, allocation keys distinct,
and recorded shares accurate while the dirty flag is clear. -/
def WF (s : DRFSorter) : Prop :=
  SortedClients s.clients ∧ NodupNames s.clients ∧
  (∀ c ∈ s.clients, ahasKey s.allocations c.name = true) ∧
  (s.allocations.map Prod.fst).Nodup ∧
  (s.dirty = false → SharesAccurate s)

instance (s : DRFSorter) : Decidable (WF s) := by
  unfold WF SortedClients NodupNames SharesAccurate; infer_instance

/-! ### Operation sequences -/

/-- The operations quantified over by the deferred-update claim:
`allocated` / `unallocated` and `add` / `remove` of total resources. -/
inductive SOp where
  | alloc (name : String) (r : Resources)
  | unalloc (name : String) (r : Resources)
  | addR (r : Resources)
  | removeR (r : Resources)

/-- One step of an `SOp` (failure of the inner `update` propagates). -/
def stepS : SOp → DRFSorter → Option DRFSorter
  | .alloc n r, s => s.allocated n r
  | .unalloc n r, s => s.unallocated n r
  | .addR r, s => some (s.addResources r)
  | .removeR r, s => some (s.removeResources r)

/-- Run a sequence of `SOp`s. -/
def runOps : List SOp → DRFSorter → Option DRFSorter
  | [], s => some s
  | op :: rest, s =>
      match stepS op s with
      | some s' => runOps rest s'
      | none => none

/-- Every sorter operation. -/
inductive AOp where
  | addC (name : String)
  | removeC (name : String)
  | activateC (name : String)
  | deactivateC (name : String)
  | allocC (name : String) (r : Resources)
  | unallocC (name : String) (r : Resources)
  | addResC (r : Resources)
  | removeResC (r : Resources)
  | sortC

/-- One sorter operation as a state step. -/
def stepA : AOp → DRFSorter → Option DRFSorter
  | .addC n, s => some (s.add n)
  | .removeC n, s => some (s.remove n)
  | .activateC n, s => s.activate n
  | .deactivateC n, s => some (s.deactivate n)
  | .allocC n r, s => s.allocated n r
  | .unallocC n r, s => s.unallocated n r
  | .addResC r, s => some (s.addResources r)
  | .removeResC r, s => some (s.removeResources r)
  | .sortC, s => some s.sort.2

/-- Run a sequence of sorter operations. -/
def runA : List AOp → DRFSorter → Option DRFSorter
  | [], s => some s
  | op :: rest, s =>
      match stepA op s with
      | some s' => runA rest s'
      | none => none

/-- Usage discipline under which the sorter's invariants hold: `add`
only introduces unknown names and `activate` is only applied to clients
not currently in the sorted set. -/
def okOp (s : DRFSorter) : AOp → Prop
  | .addC n => ahasKey s.allocations n = false
  | .activateC n => n ∉ activeNames s
  | _ => True

/-! ### Executor lifecycle (`src/slave/slave.hpp`) -/

/-- `Executor::State`, slave.hpp:347-352. -/
inductive ExecState where
  | REGISTERING
  | RUNNING
  | TERMINATING
  | TERMINATED
deriving DecidableEq

/-- An executor record (slave.hpp:325-382), restricted to the fields the
lifecycle claims mention.  Task tables hold task ids. -/
structure ExecutorRec where
  state : ExecState
  processExited : Bool
  queuedTasks : List String
  launchedTasks : List String
  terminatedTasks : List String
  completedTasks : List String
deriving DecidableEq

/-- Lifecycle events of one executor. -/
inductive ExecEvent where
  | registerE
  | launchTask (t : String)
  | terminateTask (t : String)
  | ackTask (t : String)
  | shutdownE
  | exitE

/-- Modelled from the spec: the executor transition function
(`Slave::registerExecutor`, `Slave::executorTerminated`,
`Executor::addTask` / `terminateTask` / `completeTask` live in
slave.cpp, which is not part of the sources).  Transitions follow §4.5
and §4.7 together with the `Executor::State` comments in
slave.hpp:347-352: process exit moves the executor to `TERMINATED`
("Executor has terminated but there might be pending updates"); an
acknowledged terminal update moves the task from `terminatedTasks` to
`completedTasks`.  Events that do not apply in the current state are
no-ops. -/
def execStep (x : ExecutorRec) (e : ExecEvent) : ExecutorRec :=
  match e with
  | .registerE =>
      if x.state = .REGISTERING then
        { x with state := .RUNNING,
                 launchedTasks := x.launchedTasks ++ x.queuedTasks,
                 queuedTasks := [] }
      else x
  | .launchTask t =>
      if x.state = .REGISTERING then { x with queuedTasks := t :: x.queuedTasks }
      else if x.state = .RUNNING then { x with launchedTasks := t :: x.launchedTasks }
      else x
  | .terminateTask t =>
      if t ∈ x.launchedTasks then
        { x with launchedTasks := x.launchedTasks.erase t,
                 terminatedTasks := t :: x.terminatedTasks }
      else x
  | .ackTask t =>
      if t ∈ x.terminatedTasks then
        { x with terminatedTasks := x.terminatedTasks.erase t,
                 completedTasks := t :: x.completedTasks }
      else x
  | .shutdownE =>
      if x.state = .REGISTERING ∨ x.state = .RUNNING then
        { x with state := .TERMINATING }
      else x
  | .exitE =>
      if x.state = .TERMINATED then x
      else { x with state := .TERMINATED, processExited := true }

/-- A freshly launched executor (`REGISTERING`, process alive, no
tasks). -/
def execInit : ExecutorRec := ⟨.REGISTERING, false, [], [], [], []⟩

/-- The executor record after a sequence of lifecycle events. -/
def execRun (evs : List ExecEvent) : ExecutorRec :=
  evs.foldl execStep execInit

/-- Modelled from the spec (§4.7): the executor record is removed (and
its sandbox scheduled for garbage collection) only when the process has
exited and no terminated task still awaits acknowledgement. -/
def cleanupEligible (x : ExecutorRec) : Prop :=
  x.processExited = true ∧ x.terminatedTasks = []

/-- A one-scalar bundle, used by concrete witnesses. -/
def rcpus (q : ℚ) : Resources := [⟨"cpus", RValue.scalar q⟩]

/-- Concrete state: one known client, an advertised pool. -/
def c1s : DRFSorter := (DRFSorter.empty.add "a").addResources (rcpus 10)

/-- Concrete state: two fresh clients. -/
def c2start : DRFSorter := (DRFSorter.empty.add "a").add "b"

/-- Concrete operation sequence: advertise a pool, then allocate. -/
def c2ops : List SOp := [SOp.addR (rcpus 10), SOp.alloc "a" (rcpus 2)]

/-- The state `c2ops` reaches from `c2start` (recorded shares stale,
dirty set). -/
def c2end : DRFSorter :=
  ⟨[⟨"a", 0⟩, ⟨"b", 0⟩], [("a", rcpus 2), ("b", [])], rcpus 10, true⟩

/-- The state reached by `add "a"` then `allocated("a", {cpus:1})`. -/
def c3mid : DRFSorter := ⟨[⟨"a", 0⟩], [("a", rcpus 1)], [], false⟩

/-- A reachable state whose sorted set holds two entries named "a". -/
def c4end : DRFSorter :=
  ⟨[⟨"a", 0⟩, ⟨"a", (1:ℚ)/10⟩], [("a", [])], rcpus 10, true⟩

/-- The state reached by `add "a"` then `deactivate "a"`: the client is
known but inactive, and the dirty flag is clear. -/
def c5state : DRFSorter := ⟨[], [("a", [])], [], false⟩

/-- Concrete allocated/unallocated round-trip states. -/
def c6s0 : DRFSorter := DRFSorter.empty.add "a"

def c6s1 : DRFSorter := ⟨[⟨"a", 0⟩], [("a", rcpus 2)], [], false⟩

def c6s2 : DRFSorter := ⟨[⟨"a", 0⟩], [("a", rcpus 0)], [], false⟩

/-- The state reached by advertising `{cpus:1}` and removing `{cpus:2}`:
the pool is negative. -/
def c8end : DRFSorter := ⟨[], [], [⟨"cpus", RValue.scalar (-1)⟩], true⟩

/-- Concrete pool state for the remove-total witness. -/
def c8w : DRFSorter := DRFSorter.empty.addResources (rcpus 1)

/-- The contribution of one resource to the component (n, k). -/
def contrib (r : Resource) (n : String) (k : RKind) : RValue :=
  if keyMatch r n k then r.value else k.zero

/-- The total contribution of a bundle to the component (n, k). -/
def contribSum (b : Resources) (n : String) (k : RKind) : RValue :=
  b.foldr (fun r acc => (contrib r n k).combine acc) k.zero

/-! ## Theorems -/

theorem kind_zero (k : RKind) : k.zero.kind = k := by
  cases k <;> rfl

theorem kind_combine (x y : RValue) : (x.combine y).kind = x.kind := by
  cases x <;> cases y <;> rfl

theorem kind_subv (x y : RValue) : (x.subv y).kind = x.kind := by
  cases x <;> cases y <;> rfl

theorem combine_zero (x : RValue) : x.combine x.kind.zero = x := by
  cases x <;> simp [RValue.combine, RValue.kind, RKind.zero]

theorem zero_combine (x : RValue) : x.kind.zero.combine x = x := by
  cases x <;> simp [RValue.combine, RValue.kind, RKind.zero]

theorem combine_assoc (x y z : RValue) (hxy : x.kind = y.kind)
    (hyz : y.kind = z.kind) :
    (x.combine y).combine z = x.combine (y.combine z) := by
  cases x <;> cases y <;> cases z <;>
    simp_all [RValue.combine, RValue.kind, add_assoc]

theorem combine_zeroK (x : RValue) (k : RKind) (h : x.kind = k) :
    x.combine k.zero = x := by
  rw [← h]; exact combine_zero x

theorem zero_combineK (x : RValue) (k : RKind) (h : x.kind = k) :
    k.zero.combine x = x := by
  rw [← h]; exact zero_combine x

theorem subv_zero (x : RValue) : x.subv x.kind.zero = x := by
  cases x <;> simp [RValue.subv, RValue.kind, RKind.zero]

theorem subv_zeroK (x : RValue) (k : RKind) (h : x.kind = k) :
    x.subv k.zero = x := by
  rw [← h]; exact subv_zero x

theorem subv_subv (x y z : RValue) (hxy : x.kind = y.kind)
    (hyz : y.kind = z.kind) :
    (x.subv y).subv z = x.subv (y.combine z) := by
  cases x <;> cases y <;> cases z <;>
    simp_all [RValue.subv, RValue.combine, RValue.kind, sub_sub, tsub_tsub]

theorem combine_subv_cancel (x y : RValue) (h : x.kind = y.kind) :
    (x.combine y).subv y = x := by
  cases x <;> cases y <;>
    simp_all [RValue.subv, RValue.combine, RValue.kind]

theorem keyMatch_iff (x : Resource) (n : String) (k : RKind) :
    keyMatch x n k = true ↔ x.name = n ∧ x.value.kind = k := by
  simp [keyMatch]

theorem sameKey_iff (a b : Resource) :
    sameKey a b = true ↔ a.name = b.name ∧ a.value.kind = b.value.kind := by
  simp [sameKey]

theorem contrib_kind (r : Resource) (n : String) (k : RKind) :
    (contrib r n k).kind = k := by
  unfold contrib
  split
  case isTrue h => exact ((keyMatch_iff r n k).mp h).2
  case isFalse h => exact kind_zero k

theorem contribSum_kind (b : Resources) (n : String) (k : RKind) :
    (contribSum b n k).kind = k := by
  induction b with
  | nil => exact kind_zero k
  | cons r bs ih =>
      show ((contrib r n k).combine (contribSum bs n k)).kind = k
      rw [kind_combine, contrib_kind]

theorem lookupV_nil (n : String) (k : RKind) : lookupV [] n k = k.zero := rfl

theorem lookupV_cons (x : Resource) (xs : Resources) (n : String) (k : RKind) :
    lookupV (x :: xs) n k =
      if keyMatch x n k then x.value else lookupV xs n k := by
  by_cases h : keyMatch x n k = true <;> simp [lookupV, List.find?, h]

theorem lookupV_kind (rs : Resources) (n : String) (k : RKind) :
    (lookupV rs n k).kind = k := by
  induction rs with
  | nil => exact kind_zero k
  | cons x xs ih =>
      rw [lookupV_cons]
      by_cases h : keyMatch x n k = true
      · simp only [h, if_true]
        exact ((keyMatch_iff x n k).mp h).2
      · simp only [h, if_false]
        exact ih

theorem addOne_lookupV (rs : Resources) (r : Resource) (n : String) (k : RKind) :
    lookupV (addOne rs r) n k = (lookupV rs n k).combine (contrib r n k) := by
  induction rs with
  | nil =>
      show lookupV [r] n k = (k.zero).combine (contrib r n k)
      rw [lookupV_cons, lookupV_nil]
      by_cases h : keyMatch r n k = true
      · simp only [h, if_true, contrib]
        have hk := ((keyMatch_iff r n k).mp h).2
        rw [← hk, zero_combine]
      · simp only [h, if_false, contrib, Bool.false_eq_true]
        rw [zero_combineK _ k (kind_zero k)]
  | cons x xs ih =>
      show lookupV (if sameKey x r then
        { x with value := x.value.combine r.value } :: xs
        else x :: addOne xs r) n k = _
      by_cases hsk : sameKey x r = true
      · simp only [hsk, if_true]
        rw [lookupV_cons, lookupV_cons]
        have hxr := (sameKey_iff x r).mp hsk
        by_cases hm : keyMatch x n k = true
        · have hm' : keyMatch ({ x with value := x.value.combine r.value }) n k = true := by
            rw [keyMatch_iff] at hm ⊢
            exact ⟨hm.1, by rw [kind_combine]; exact hm.2⟩
          simp only [hm, hm', if_true]
          have : contrib r n k = r.value := by
            unfold contrib
            have : keyMatch r n k = true := by
              rw [keyMatch_iff] at hm ⊢
              exact ⟨hxr.1 ▸ hm.1, hxr.2 ▸ hm.2⟩
            simp [this]
          rw [this]
        · have hm' : keyMatch ({ x with value := x.value.combine r.value }) n k = false := by
            rw [Bool.eq_false_iff]
            intro hc
            rw [keyMatch_iff] at hc
            apply hm
            rw [keyMatch_iff]
            exact ⟨hc.1, by rw [← kind_combine x.value r.value]; exact hc.2⟩
          simp only [hm, hm', if_false, Bool.false_eq_true]
          have : contrib r n k = k.zero := by
            unfold contrib
            have : keyMatch r n k = false := by
              rw [Bool.eq_false_iff]
              intro hc
              rw [keyMatch_iff] at hc
              apply hm
              rw [keyMatch_iff]
              exact ⟨hxr.1 ▸ hc.1, hxr.2 ▸ hc.2⟩
            simp [this]
          rw [this, combine_zeroK _ k (lookupV_kind xs n k)]
      · simp only [hsk, if_false, Bool.false_eq_true]
        rw [lookupV_cons, lookupV_cons]
        by_cases hm : keyMatch x n k = true
        · simp only [hm, if_true]
          have : contrib r n k = k.zero := by
            unfold contrib
            have : keyMatch r n k = false := by
              rw [Bool.eq_false_iff]
              intro hc
              rw [keyMatch_iff] at hc
              rw [keyMatch_iff] at hm
              apply hsk
              rw [sameKey_iff]
              exact ⟨hm.1.trans hc.1.symm, hm.2.trans hc.2.symm⟩
            simp [this]
          rw [this]
          exact (combine_zeroK _ k ((keyMatch_iff x n k).mp hm).2).symm
        · simp only [hm, if_false, Bool.false_eq_true]
          exact ih

theorem sameKey_subv (x b : Resource) (v : RValue) :
    sameKey { x with value := x.value.subv v } b = sameKey x b := by
  simp [sameKey, kind_subv]

theorem sameKey_combine (x b : Resource) (v : RValue) :
    sameKey { x with value := x.value.combine v } b = sameKey x b := by
  simp [sameKey, kind_combine]

theorem keyPresent_cons (x : Resource) (xs : Resources) (r : Resource) :
    keyPresent (x :: xs) r = (sameKey x r || keyPresent xs r) := by
  simp [keyPresent]

theorem subOne_lookupV (rs : Resources) (r : Resource) (n : String) (k : RKind)
    (h : keyPresent rs r = true) :
    lookupV (subOne rs r) n k = (lookupV rs n k).subv (contrib r n k) := by
  induction rs with
  | nil => simp [keyPresent] at h
  | cons x xs ih =>
      by_cases hsk : sameKey x r = true
      · show lookupV (if sameKey x r then
          { x with value := x.value.subv r.value } :: xs
          else x :: subOne xs r) n k = _
        simp only [hsk, if_true]
        rw [lookupV_cons, lookupV_cons]
        have hxr := (sameKey_iff x r).mp hsk
        have hmeq : keyMatch ({ x with value := x.value.subv r.value }) n k =
            keyMatch x n k := by
          simp [keyMatch, kind_subv]
        rw [hmeq]
        by_cases hm : keyMatch x n k = true
        · simp only [hm, if_true]
          have : contrib r n k = r.value := by
            unfold contrib
            have : keyMatch r n k = true := by
              rw [keyMatch_iff] at hm ⊢
              exact ⟨hxr.1 ▸ hm.1, hxr.2 ▸ hm.2⟩
            simp [this]
          rw [this]
        · simp only [hm, if_false, Bool.false_eq_true]
          have : contrib r n k = k.zero := by
            unfold contrib
            have : keyMatch r n k = false := by
              rw [Bool.eq_false_iff]
              intro hc
              rw [keyMatch_iff] at hc
              apply hm
              rw [keyMatch_iff]
              exact ⟨hxr.1 ▸ hc.1, hxr.2 ▸ hc.2⟩
            simp [this]
          rw [this, subv_zeroK _ k (lookupV_kind xs n k)]
      · show lookupV (if sameKey x r then
          { x with value := x.value.subv r.value } :: xs
          else x :: subOne xs r) n k = _
        simp only [hsk, if_false, Bool.false_eq_true]
        have hxs : keyPresent xs r = true := by
          rw [keyPresent_cons] at h
          rcases Bool.or_eq_true_iff.mp h with h1 | h1
          · exact absurd h1 hsk
          · exact h1
        rw [lookupV_cons, lookupV_cons]
        by_cases hm : keyMatch x n k = true
        · simp only [hm, if_true]
          have : contrib r n k = k.zero := by
            unfold contrib
            have : keyMatch r n k = false := by
              rw [Bool.eq_false_iff]
              intro hc
              rw [keyMatch_iff] at hc
              rw [keyMatch_iff] at hm
              apply hsk
              rw [sameKey_iff]
              exact ⟨hm.1.trans hc.1.symm, hm.2.trans hc.2.symm⟩
            simp [this]
          rw [this]
          exact (subv_zeroK _ k ((keyMatch_iff x n k).mp hm).2).symm
        · simp only [hm, if_false, Bool.false_eq_true]
          exact ih hxs

theorem keyPresent_subOne (rs : Resources) (r r' : Resource) :
    keyPresent (subOne rs r') r = keyPresent rs r := by
  induction rs with
  | nil => rfl
  | cons x xs ih =>
      show keyPresent (if sameKey x r' then
        { x with value := x.value.subv r'.value } :: xs
        else x :: subOne xs r') r = _
      by_cases hsk : sameKey x r' = true
      · simp only [hsk, if_true]
        rw [keyPresent_cons, keyPresent_cons, sameKey_subv]
      · simp only [hsk, if_false, Bool.false_eq_true]
        rw [keyPresent_cons, keyPresent_cons, ih]

theorem keyPresent_addOne_self (rs : Resources) (r : Resource) :
    keyPresent (addOne rs r) r = true := by
  induction rs with
  | nil =>
      show keyPresent [r] r = true
      rw [keyPresent_cons]
      have : sameKey r r = true := by rw [sameKey_iff]; exact ⟨rfl, rfl⟩
      simp [this]
  | cons x xs ih =>
      show keyPresent (if sameKey x r then
        { x with value := x.value.combine r.value } :: xs
        else x :: addOne xs r) r = true
      by_cases hsk : sameKey x r = true
      · simp only [hsk, if_true]
        rw [keyPresent_cons, sameKey_combine, hsk, Bool.true_or]
      · simp only [hsk, if_false, Bool.false_eq_true]
        rw [keyPresent_cons, ih, Bool.or_true]

theorem keyPresent_addOne_mono (rs : Resources) (r r' : Resource)
    (h : keyPresent rs r' = true) : keyPresent (addOne rs r) r' = true := by
  induction rs with
  | nil => simp [keyPresent] at h
  | cons x xs ih =>
      show keyPresent (if sameKey x r then
        { x with value := x.value.combine r.value } :: xs
        else x :: addOne xs r) r' = true
      rw [keyPresent_cons] at h
      by_cases hsk : sameKey x r = true
      · simp only [hsk, if_true]
        rw [keyPresent_cons, sameKey_combine]
        exact h
      · simp only [hsk, if_false, Bool.false_eq_true]
        rw [keyPresent_cons]
        rcases Bool.or_eq_true_iff.mp h with h1 | h1
        · rw [h1, Bool.true_or]
        · rw [ih h1, Bool.or_true]

theorem radd_keyPresent_mono (a b : Resources) (r : Resource)
    (h : keyPresent a r = true) : keyPresent (radd a b) r = true := by
  induction b generalizing a with
  | nil => exact h
  | cons r' bs ih =>
      show keyPresent (radd (addOne a r') bs) r = true
      exact ih _ (keyPresent_addOne_mono a r' r h)

theorem radd_keyPresent (a b : Resources) (r : Resource) (h : r ∈ b) :
    keyPresent (radd a b) r = true := by
  induction b generalizing a with
  | nil => cases h
  | cons r' bs ih =>
      show keyPresent (radd (addOne a r') bs) r = true
      rcases List.mem_cons.mp h with h1 | h1
      · subst h1
        exact radd_keyPresent_mono _ bs r (keyPresent_addOne_self a r)
      · exact ih _ h1

theorem radd_lookupV (a b : Resources) (n : String) (k : RKind) :
    lookupV (radd a b) n k = (lookupV a n k).combine (contribSum b n k) := by
  induction b generalizing a with
  | nil => exact (combine_zeroK _ k (lookupV_kind a n k)).symm
  | cons r bs ih =>
      show lookupV (radd (addOne a r) bs) n k =
        (lookupV a n k).combine ((contrib r n k).combine (contribSum bs n k))
      rw [ih (addOne a r), addOne_lookupV,
        combine_assoc _ _ _ (by rw [lookupV_kind, contrib_kind])
          (by rw [contrib_kind, contribSum_kind])]

theorem rsub_lookupV (a b : Resources) (n : String) (k : RKind)
    (h : ∀ r ∈ b, keyPresent a r = true) :
    lookupV (rsub a b) n k = (lookupV a n k).subv (contribSum b n k) := by
  induction b generalizing a with
  | nil => exact (subv_zeroK _ k (lookupV_kind a n k)).symm
  | cons r bs ih =>
      show lookupV (rsub (subOne a r) bs) n k =
        (lookupV a n k).subv ((contrib r n k).combine (contribSum bs n k))
      have h' : ∀ r'' ∈ bs, keyPresent (subOne a r) r'' = true := by
        intro r'' hr
        rw [keyPresent_subOne]
        exact h r'' (List.mem_cons_of_mem _ hr)
      rw [ih (subOne a r) h', subOne_lookupV _ _ _ _ (h r (List.mem_cons_self _ _)),
        subv_subv _ _ _ (by rw [lookupV_kind, contrib_kind])
          (by rw [contrib_kind, contribSum_kind])]

/-- Adding a bundle and subtracting it again is the pointwise identity. -/
theorem radd_rsub_cancel (A B : Resources) : pweq (rsub (radd A B) B) A := by
  intro n k
  rw [rsub_lookupV _ _ n k (fun r hr => radd_keyPresent A B r hr), radd_lookupV]
  exact combine_subv_cancel _ _ (by rw [lookupV_kind, contribSum_kind])

/-! ### The share computation agrees with the spec's definition -/

theorem foldr_max_start (a t : ℚ) (ts : List ℚ) :
    ts.foldr max (max a t) = max t (ts.foldr max a) := by
  induction ts with
  | nil => exact max_comm a t
  | cons u ts ih =>
      show max u (ts.foldr max (max a t)) = max t (max u (ts.foldr max a))
      rw [ih, max_left_comm]

theorem shareOf_foldl (alloc : Resources) (total : Resources) (a : ℚ) :
    total.foldl (shareStep alloc) a =
      ((total.filter isPosScalar).map
        (fun r => getScalar alloc r.name / scalarValue r)).foldr max a := by
  induction total generalizing a with
  | nil => rfl
  | cons r rest ih =>
      show List.foldl (shareStep alloc) (shareStep alloc a r) rest = _
      rcases hv : r.value with t | m | m
      · by_cases hp : (0:ℚ) < t
        · have hstep : shareStep alloc a r = max a (getScalar alloc r.name / t) := by
            unfold shareStep
            rw [hv]
            simp [hp]
          have hfil : isPosScalar r = true := by
            unfold isPosScalar
            rw [hv]
            simpa using hp
          have hval : scalarValue r = t := by unfold scalarValue; rw [hv]
          rw [hstep, ih, List.filter_cons_of_pos hfil, List.map_cons,
            List.foldr_cons, hval, foldr_max_start]
        · have hstep : shareStep alloc a r = a := by
            unfold shareStep
            rw [hv]
            simp [hp]
          have hfil : isPosScalar r = false := by
            unfold isPosScalar
            rw [hv]
            simpa using hp
          rw [hstep, ih, List.filter_cons_of_neg (by simp [hfil])]
      · have hstep : shareStep alloc a r = a := by unfold shareStep; rw [hv]
        have hfil : isPosScalar r = false := by unfold isPosScalar; rw [hv]
        rw [hstep, ih, List.filter_cons_of_neg (by simp [hfil])]
      · have hstep : shareStep alloc a r = a := by unfold shareStep; rw [hv]
        have hfil : isPosScalar r = false := by unfold isPosScalar; rw [hv]
        rw [hstep, ih, List.filter_cons_of_neg (by simp [hfil])]

/-- `DRFSorter::calculateShare` computes exactly the spec's share. -/
theorem calculateShare_eq_specShare (s : DRFSorter) (name : String) :
    s.calculateShare name = specShare s name := by
  unfold DRFSorter.calculateShare shareOf specShare DRFSorter.allocation
  exact shareOf_foldl _ _ 0

theorem alookupD_of_not_hasKey (m : List (String × Resources)) (k : String)
    (h : ahasKey m k = false) : alookupD m k = [] := by
  unfold alookupD
  have : m.find? (fun p => p.1 == k) = none := by
    rw [List.find?_eq_none]
    intro p hp
    intro hc
    have : ahasKey m k = true := by
      unfold ahasKey
      rw [List.any_eq_true]
      exact ⟨p, hp, hc⟩
    rw [this] at h
    cases h
  rw [this]

theorem getScalar_nil (n : String) : getScalar [] n = 0 := rfl

theorem shareOf_alloc_nil (total : Resources) : shareOf total [] = 0 := by
  unfold shareOf
  have : ∀ (l : Resources) (a : ℚ), 0 ≤ a → l.foldl (shareStep []) a = a := by
    intro l
    induction l with
    | nil => intro a _; rfl
    | cons r rest ih =>
        intro a ha
        show List.foldl (shareStep []) (shareStep [] a r) rest = a
        have hstep : shareStep [] a r = a := by
          unfold shareStep
          rcases hv : r.value with t | m | m
          · by_cases hp : (0:ℚ) < t
            · simp [hp, getScalar_nil, max_eq_left ha]
            · simp [hp]
          · rfl
          · rfl
        rw [hstep]
        exact ih a ha
  exact this total 0 le_rfl

/-! ### The comparator and the sorted client set -/

theorem strLtB_irrefl (l : List Char) : strLtB l l = false := by
  induction l with
  | nil => rfl
  | cons a as ih =>
      show (if a.val.toNat < a.val.toNat then true
        else if a.val.toNat < a.val.toNat then false else strLtB as as) = false
      rw [if_neg (lt_irrefl _), if_neg (lt_irrefl _)]
      exact ih

theorem strLtB_trans {a b c : List Char} (h1 : strLtB a b = true)
    (h2 : strLtB b c = true) : strLtB a c = true := by
  induction a generalizing b c with
  | nil =>
      cases c with
      | nil =>
          cases b with
          | nil => exact h1
          | cons y bs => cases h2
      | cons z cs => rfl
  | cons x as ih =>
      cases b with
      | nil => cases h1
      | cons y bs =>
          cases c with
          | nil => cases h2
          | cons z cs =>
              show (if x.val.toNat < z.val.toNat then true
                else if z.val.toNat < x.val.toNat then false else strLtB as cs) = true
              rw [show strLtB (x :: as) (y :: bs) =
                (if x.val.toNat < y.val.toNat then true
                  else if y.val.toNat < x.val.toNat then false else strLtB as bs) from rfl]
                at h1
              rw [show strLtB (y :: bs) (z :: cs) =
                (if y.val.toNat < z.val.toNat then true
                  else if z.val.toNat < y.val.toNat then false else strLtB bs cs) from rfl]
                at h2
              by_cases hxy : x.val.toNat < y.val.toNat
              · by_cases hyz : y.val.toNat < z.val.toNat
                · rw [if_pos (hxy.trans hyz)]
                · rw [if_neg hyz] at h2
                  by_cases hzy : z.val.toNat < y.val.toNat
                  · rw [if_pos hzy] at h2
                    cases h2
                  · have hyzeq : y.val.toNat = z.val.toNat :=
                      le_antisymm (le_of_not_lt hzy) (le_of_not_lt hyz)
                    rw [if_pos (hyzeq ▸ hxy)]
              · rw [if_neg hxy] at h1
                by_cases hyx : y.val.toNat < x.val.toNat
                · rw [if_pos hyx] at h1
                  cases h1
                · rw [if_neg hyx] at h1
                  have hxyeq : x.val.toNat = y.val.toNat :=
                    le_antisymm (le_of_not_lt hyx) (le_of_not_lt hxy)
                  by_cases hyz : y.val.toNat < z.val.toNat
                  · rw [if_pos (hxyeq ▸ hyz)]
                  · rw [if_neg hyz] at h2
                    by_cases hzy : z.val.toNat < y.val.toNat
                    · rw [if_pos hzy] at h2
                      cases h2
                    · rw [if_neg hzy] at h2
                      rw [if_neg (hxyeq ▸ hyz), if_neg (hxyeq ▸ hzy)]
                      exact ih h1 h2

theorem strLtB_false_eq {a b : List Char} (h1 : strLtB a b = false)
    (h2 : strLtB b a = false) : a = b := by
  induction a generalizing b with
  | nil =>
      cases b with
      | nil => rfl
      | cons y bs => cases h1
  | cons x as ih =>
      cases b with
      | nil => cases h2
      | cons y bs =>
          rw [show strLtB (x :: as) (y :: bs) =
            (if x.val.toNat < y.val.toNat then true
              else if y.val.toNat < x.val.toNat then false else strLtB as bs) from rfl] at h1
          rw [show strLtB (y :: bs) (x :: as) =
            (if y.val.toNat < x.val.toNat then true
              else if x.val.toNat < y.val.toNat then false else strLtB bs as) from rfl] at h2
          by_cases hxy : x.val.toNat < y.val.toNat
          · rw [if_pos hxy] at h1
            cases h1
          · by_cases hyx : y.val.toNat < x.val.toNat
            · rw [if_pos hyx] at h2
              cases h2
            · rw [if_neg hxy, if_neg hyx] at h1
              rw [if_neg hyx, if_neg hxy] at h2
              have hch : x = y := Char.ext (UInt32.ext
                (le_antisymm (le_of_not_lt hyx) (le_of_not_lt hxy)))
              rw [hch, ih h1 h2]

theorem strLt_irrefl (a : String) : strLt a a = false := strLtB_irrefl a.data

theorem strLt_trans {a b c : String} (h1 : strLt a b = true)
    (h2 : strLt b c = true) : strLt a c = true := strLtB_trans h1 h2

theorem strLt_false_eq {a b : String} (h1 : strLt a b = false)
    (h2 : strLt b a = false) : a = b := by
  have hd : a.data = b.data := strLtB_false_eq h1 h2
  cases a
  cases b
  exact congrArg String.mk hd

theorem strLtB_lex {a b : List Char} (h : strLtB a b = true) :
    List.Lex (· < ·) a b := by
  induction a generalizing b with
  | nil =>
      cases b with
      | nil => cases h
      | cons y bs => exact List.Lex.nil
  | cons x as ih =>
      cases b with
      | nil => cases h
      | cons y bs =>
          rw [show strLtB (x :: as) (y :: bs) =
            (if x.val.toNat < y.val.toNat then true
              else if y.val.toNat < x.val.toNat then false
              else strLtB as bs) from rfl] at h
          by_cases hxy : x.val.toNat < y.val.toNat
          · exact List.Lex.rel (Char.lt_def.mpr hxy)
          · rw [if_neg hxy] at h
            by_cases hyx : y.val.toNat < x.val.toNat
            · rw [if_pos hyx] at h
              cases h
            · rw [if_neg hyx] at h
              have hxyeq : x = y := Char.ext (UInt32.ext
                (le_antisymm (le_of_not_lt hyx) (le_of_not_lt hxy)))
              rw [hxyeq]
              exact List.Lex.cons (ih h)

theorem strLt_le {a b : String} (h : strLt a b = true) : a ≤ b :=
  le_of_lt (String.lt_iff_toList_lt.mpr (strLtB_lex h))

theorem cltb_iff (a b : Client) :
    cltb a b = true ↔
      a.share < b.share ∨ (a.share = b.share ∧ strLt a.name b.name = true) := by
  by_cases h : a.share = b.share <;> simp [cltb, h]

theorem cltb_irrefl (a : Client) : cltb a a = false := by
  simp [cltb, strLt_irrefl]

theorem cltb_trans {a b c : Client} (h1 : cltb a b = true)
    (h2 : cltb b c = true) : cltb a c = true := by
  rw [cltb_iff] at h1 h2 ⊢
  rcases h1 with h1 | ⟨h1e, h1n⟩
  · rcases h2 with h2 | ⟨h2e, _⟩
    · exact Or.inl (h1.trans h2)
    · exact Or.inl (h2e ▸ h1)
  · rcases h2 with h2 | ⟨h2e, h2n⟩
    · exact Or.inl (h1e ▸ h2)
    · exact Or.inr ⟨h1e.trans h2e, strLt_trans h1n h2n⟩

theorem cltb_asymm {a b : Client} (h1 : cltb a b = true)
    (h2 : cltb b a = true) : False := by
  have := cltb_trans h1 h2
  rw [cltb_irrefl] at this
  cases this

theorem eq_of_cltb_false {a b : Client} (h1 : cltb a b = false)
    (h2 : cltb b a = false) : a = b := by
  have h1' : ¬(a.share < b.share ∨
      (a.share = b.share ∧ strLt a.name b.name = true)) := by
    intro hc
    have := (cltb_iff a b).mpr hc
    rw [h1] at this
    cases this
  have h2' : ¬(b.share < a.share ∨
      (b.share = a.share ∧ strLt b.name a.name = true)) := by
    intro hc
    have := (cltb_iff b a).mpr hc
    rw [h2] at this
    cases this
  push_neg at h1' h2'
  have hsh : a.share = b.share := le_antisymm h2'.1 h1'.1
  have hnm : a.name = b.name :=
    strLt_false_eq (Bool.eq_false_iff.mpr (h1'.2 hsh))
      (Bool.eq_false_iff.mpr (h2'.2 hsh.symm))
  cases a; cases b
  simp_all

theorem mem_setInsert {l : List Client} {c y : Client}
    (h : y ∈ setInsert l c) : y = c ∨ y ∈ l := by
  induction l with
  | nil =>
      rcases List.mem_singleton.mp h with h1
      exact Or.inl h1
  | cons x xs ih =>
      unfold setInsert at h
      by_cases h1 : cltb c x = true
      · simp only [h1, if_true] at h
        rcases List.mem_cons.mp h with h2 | h2
        · exact Or.inl h2
        · exact Or.inr h2
      · simp only [h1, if_false, Bool.false_eq_true] at h
        by_cases h2 : cltb x c = true
        · simp only [h2, if_true] at h
          rcases List.mem_cons.mp h with h3 | h3
          · exact Or.inr (h3 ▸ List.mem_cons_self x xs)
          · rcases ih h3 with h4 | h4
            · exact Or.inl h4
            · exact Or.inr (List.mem_cons_of_mem x h4)
        · simp only [h2, if_false, Bool.false_eq_true] at h
          exact Or.inr h

theorem setInsert_sorted {l : List Client} (c : Client)
    (h : SortedClients l) : SortedClients (setInsert l c) := by
  induction l with
  | nil => exact List.pairwise_singleton _ c
  | cons x xs ih =>
      unfold setInsert
      by_cases h1 : cltb c x = true
      · simp only [h1, if_true]
        refine List.Pairwise.cons ?_ h
        intro y hy
        rcases List.mem_cons.mp hy with h2 | h2
        · exact h2 ▸ h1
        · exact cltb_trans h1 (List.rel_of_pairwise_cons h h2)
      · simp only [h1, if_false, Bool.false_eq_true]
        by_cases h2 : cltb x c = true
        · simp only [h2, if_true]
          refine List.Pairwise.cons ?_ (ih (List.Pairwise.of_cons h))
          intro y hy
          rcases mem_setInsert hy with h3 | h3
          · exact h3 ▸ h2
          · exact List.rel_of_pairwise_cons h h3
        · simp only [h2, if_false, Bool.false_eq_true]
          exact h

theorem setInsert_eq_of_mem {l : List Client} {c : Client}
    (hs : SortedClients l) (hm : c ∈ l) : setInsert l c = l := by
  induction l with
  | nil => cases hm
  | cons x xs ih =>
      unfold setInsert
      rcases List.mem_cons.mp hm with h1 | h1
      · subst h1
        rw [cltb_irrefl]
        simp
      · have hxc : cltb x c = true := List.rel_of_pairwise_cons hs h1
        have hcx : cltb c x = false := by
          rw [Bool.eq_false_iff]
          intro hc
          exact cltb_asymm hc hxc
        simp only [hcx, hxc, if_true, if_false, Bool.false_eq_true]
        rw [ih (List.Pairwise.of_cons hs) h1]

theorem setInsert_names_perm {l : List Client} {c : Client}
    (h : c.name ∉ l.map Client.name) :
    List.Perm ((setInsert l c).map Client.name) (c.name :: l.map Client.name) := by
  induction l with
  | nil => exact List.Perm.refl _
  | cons x xs ih =>
      have hne : c.name ≠ x.name := by
        intro hc
        exact h (by rw [List.map_cons, hc]; exact List.mem_cons_self _ _)
      have hns : c.name ∉ xs.map Client.name := by
        intro hc
        exact h (by rw [List.map_cons]; exact List.mem_cons_of_mem _ hc)
      unfold setInsert
      by_cases h1 : cltb c x = true
      · simp only [h1, if_true]
        exact List.Perm.refl _
      · simp only [h1, if_false, Bool.false_eq_true]
        by_cases h2 : cltb x c = true
        · simp only [h2, if_true]
          rw [List.map_cons, List.map_cons]
          exact ((ih hns).cons x.name).trans (List.Perm.swap _ _ _)
        · have heq : x = c := eq_of_cltb_false
            (Bool.eq_false_iff.mpr h2) (Bool.eq_false_iff.mpr h1)
          exact absurd (heq ▸ rfl) hne.symm

theorem mem_setInsert_self {l : List Client} {c : Client}
    (h : c.name ∉ l.map Client.name) : c ∈ setInsert l c := by
  induction l with
  | nil => exact List.mem_singleton.mpr rfl
  | cons x xs ih =>
      have hne : c.name ≠ x.name := by
        intro hc
        exact h (by rw [List.map_cons, hc]; exact List.mem_cons_self _ _)
      have hns : c.name ∉ xs.map Client.name := by
        intro hc
        exact h (by rw [List.map_cons]; exact List.mem_cons_of_mem _ hc)
      unfold setInsert
      by_cases h1 : cltb c x = true
      · simp only [h1, if_true]
        exact List.mem_cons_self _ _
      · simp only [h1, if_false, Bool.false_eq_true]
        by_cases h2 : cltb x c = true
        · simp only [h2, if_true]
          exact List.mem_cons_of_mem x (ih hns)
        · have hexq : x = c := eq_of_cltb_false
            (Bool.eq_false_iff.mpr h2) (Bool.eq_false_iff.mpr h1)
          exact absurd (hexq ▸ rfl) hne.symm

theorem eraseFirstName_sublist (l : List Client) (n : String) :
    (eraseFirstName l n).Sublist l := by
  induction l with
  | nil => exact List.Sublist.refl _
  | cons x xs ih =>
      unfold eraseFirstName
      by_cases h : (x.name == n) = true
      · simp only [h, if_true]
        exact List.sublist_cons_self x xs
      · simp only [h, if_false, Bool.false_eq_true]
        exact ih.cons₂ x

theorem eraseFirstName_perm {l : List Client} {n : String}
    (h : n ∈ l.map Client.name) :
    List.Perm (l.map Client.name)
      (n :: (eraseFirstName l n).map Client.name) := by
  induction l with
  | nil => cases h
  | cons x xs ih =>
      unfold eraseFirstName
      by_cases h1 : (x.name == n) = true
      · simp only [h1, if_true]
        rw [List.map_cons, beq_iff_eq.mp h1]
      · simp only [h1, if_false, Bool.false_eq_true]
        have h2 : n ∈ xs.map Client.name := by
          rcases List.mem_cons.mp (List.map_cons Client.name x xs ▸ h) with h3 | h3
          · exact absurd h3.symm (by simpa using h1)
          · exact h3
        rw [List.map_cons, List.map_cons]
        exact ((ih h2).cons x.name).trans (List.Perm.swap _ _ _)

theorem eraseFirstName_eq_of_not_mem {l : List Client} {n : String}
    (h : n ∉ l.map Client.name) : eraseFirstName l n = l := by
  induction l with
  | nil => rfl
  | cons x xs ih =>
      unfold eraseFirstName
      have h1 : (x.name == n) = false := by
        rw [beq_eq_false_iff_ne]
        intro hc
        exact h (by rw [List.map_cons, hc]; exact List.mem_cons_self _ _)
      simp only [h1, if_false, Bool.false_eq_true]
      rw [ih (fun hc => h (by rw [List.map_cons]; exact List.mem_cons_of_mem _ hc))]

theorem findClient_isSome_iff (l : List Client) (n : String) :
    (findClient l n).isSome = true ↔ n ∈ l.map Client.name := by
  unfold findClient
  rw [List.find?_isSome]
  constructor
  · rintro ⟨c, hc, hn⟩
    rw [List.mem_map]
    exact ⟨c, hc, beq_iff_eq.mp hn⟩
  · intro h
    rcases List.mem_map.mp h with ⟨c, hc, hn⟩
    exact ⟨c, hc, beq_iff_eq.mpr hn⟩

/-! ### The allocations map -/

theorem alookupD_aset_self (m : List (String × Resources)) (k : String)
    (v : Resources) : alookupD (aset m k v) k = v := by
  induction m with
  | nil => simp [aset, alookupD, List.find?]
  | cons p xs ih =>
      rcases p with ⟨a, b⟩
      unfold aset
      by_cases h : (a == k) = true
      · simp [h, alookupD, List.find?]
      · simp only [h, if_false, Bool.false_eq_true]
        unfold alookupD at ih ⊢
        simp only [List.find?, h]
        exact ih

theorem alookupD_aset_ne (m : List (String × Resources)) (k k' : String)
    (v : Resources) (h : k' ≠ k) :
    alookupD (aset m k v) k' = alookupD m k' := by
  induction m with
  | nil =>
      simp only [aset, alookupD, List.find?]
      have : (k == k') = false := beq_eq_false_iff_ne.mpr (Ne.symm h)
      simp [this]
  | cons p xs ih =>
      rcases p with ⟨a, b⟩
      unfold aset
      by_cases h1 : (a == k) = true
      · simp only [h1, if_true]
        unfold alookupD
        have h2 : (k == k') = false := beq_eq_false_iff_ne.mpr (Ne.symm h)
        have h3 : (a == k') = false := by
          rw [beq_iff_eq.mp h1]
          exact h2
        simp only [List.find?, h2, h3]
      · simp only [h1, if_false, Bool.false_eq_true]
        unfold alookupD at ih ⊢
        simp only [List.find?]
        by_cases h2 : (a == k') = true
        · simp [h2]
        · simp only [h2, Bool.false_eq_true, if_false]
          simpa [h2] using ih

theorem ahasKey_cons (p : String × Resources) (xs : List (String × Resources))
    (k : String) : ahasKey (p :: xs) k = ((p.1 == k) || ahasKey xs k) := by
  simp [ahasKey]

theorem ahasKey_aset_self (m : List (String × Resources)) (k : String)
    (v : Resources) : ahasKey (aset m k v) k = true := by
  induction m with
  | nil => simp [aset, ahasKey]
  | cons p xs ih =>
      rcases p with ⟨a, b⟩
      unfold aset
      by_cases h : (a == k) = true
      · simp [h, ahasKey]
      · simp only [h, if_false, Bool.false_eq_true]
        rw [ahasKey_cons, ih, Bool.or_true]

theorem ahasKey_aset_ne (m : List (String × Resources)) (k k' : String)
    (v : Resources) (h : k' ≠ k) :
    ahasKey (aset m k v) k' = ahasKey m k' := by
  induction m with
  | nil =>
      have : (k == k') = false := beq_eq_false_iff_ne.mpr (Ne.symm h)
      simp [aset, ahasKey, this]
  | cons p xs ih =>
      rcases p with ⟨a, b⟩
      unfold aset
      by_cases h1 : (a == k) = true
      · simp only [h1, if_true]
        rw [ahasKey_cons, ahasKey_cons]
        have : (k == k') = false := beq_eq_false_iff_ne.mpr (Ne.symm h)
        rw [this, beq_iff_eq.mp h1, this]
      · simp only [h1, if_false, Bool.false_eq_true]
        rw [ahasKey_cons, ahasKey_cons, ih]

theorem mem_keys_aset (m : List (String × Resources)) (k : String)
    (v : Resources) (k' : String) (h : k' ∈ (aset m k v).map Prod.fst) :
    k' ∈ m.map Prod.fst ∨ k' = k := by
  induction m with
  | nil =>
      simp only [aset, List.map_cons, List.map_nil] at h
      exact Or.inr (List.mem_singleton.mp h)
  | cons p xs ih =>
      rcases p with ⟨a, b⟩
      unfold aset at h
      by_cases h1 : (a == k) = true
      · simp only [h1, if_true, List.map_cons] at h
        rcases List.mem_cons.mp h with h2 | h2
        · exact Or.inr h2
        · exact Or.inl (by rw [List.map_cons]; exact List.mem_cons_of_mem _ h2)
      · simp only [h1, if_false, Bool.false_eq_true, List.map_cons] at h
        rcases List.mem_cons.mp h with h2 | h2
        · exact Or.inl (by rw [List.map_cons]; exact h2 ▸ List.mem_cons_self _ _)
        · rcases ih h2 with h3 | h3
          · exact Or.inl (by rw [List.map_cons]; exact List.mem_cons_of_mem _ h3)
          · exact Or.inr h3

theorem aset_keys_nodup (m : List (String × Resources)) (k : String)
    (v : Resources) (h : (m.map Prod.fst).Nodup) :
    ((aset m k v).map Prod.fst).Nodup := by
  induction m with
  | nil => simp [aset]
  | cons p xs ih =>
      rcases p with ⟨a, b⟩
      rw [List.map_cons] at h
      have ha : a ∉ xs.map Prod.fst := (List.nodup_cons.mp h).1
      have hxs : (xs.map Prod.fst).Nodup := (List.nodup_cons.mp h).2
      unfold aset
      by_cases h1 : (a == k) = true
      · simp only [h1, if_true, List.map_cons]
        rw [List.nodup_cons]
        exact ⟨beq_iff_eq.mp h1 ▸ ha, hxs⟩
      · simp only [h1, if_false, Bool.false_eq_true, List.map_cons]
        rw [List.nodup_cons]
        refine ⟨?_, ih hxs⟩
        intro hc
        rcases mem_keys_aset xs k v a hc with h2 | h2
        · exact ha h2
        · exact absurd h2 (by simpa using h1)

theorem aerase_sublist (m : List (String × Resources)) (k : String) :
    (aerase m k).Sublist m := by
  induction m with
  | nil => exact List.Sublist.refl _
  | cons p xs ih =>
      rcases p with ⟨a, b⟩
      unfold aerase
      by_cases h : (a == k) = true
      · simp only [h, if_true]
        exact List.sublist_cons_self _ xs
      · simp only [h, if_false, Bool.false_eq_true]
        exact ih.cons₂ _

theorem ahasKey_aerase_ne (m : List (String × Resources)) (k k' : String)
    (h : k' ≠ k) : ahasKey (aerase m k) k' = ahasKey m k' := by
  induction m with
  | nil => rfl
  | cons p xs ih =>
      rcases p with ⟨a, b⟩
      unfold aerase
      by_cases h1 : (a == k) = true
      · simp only [h1, if_true]
        rw [ahasKey_cons]
        have : (a == k') = false := by
          rw [beq_iff_eq.mp h1]
          exact beq_eq_false_iff_ne.mpr (Ne.symm h)
        rw [this, Bool.false_or]
      · simp only [h1, if_false, Bool.false_eq_true]
        rw [ahasKey_cons, ahasKey_cons, ih]

theorem alookupD_aerase_ne (m : List (String × Resources)) (k k' : String)
    (h : k' ≠ k) : alookupD (aerase m k) k' = alookupD m k' := by
  induction m with
  | nil => rfl
  | cons p xs ih =>
      rcases p with ⟨a, b⟩
      unfold aerase
      by_cases h1 : (a == k) = true
      · simp only [h1, if_true]
        unfold alookupD
        have : (a == k') = false := by
          rw [beq_iff_eq.mp h1]
          exact beq_eq_false_iff_ne.mpr (Ne.symm h)
        simp only [List.find?, this]
      · simp only [h1, if_false, Bool.false_eq_true]
        unfold alookupD at ih ⊢
        simp only [List.find?]
        by_cases h2 : (a == k') = true
        · simp [h2]
        · simp only [h2, Bool.false_eq_true, if_false]
          simpa [h2] using ih

/-! ### Share congruence and the sorted-set rebuild -/

theorem calculateShare_congr (s s' : DRFSorter) (n : String)
    (hres : s'.resources = s.resources)
    (halloc : alookupD s'.allocations n = alookupD s.allocations n) :
    s'.calculateShare n = s.calculateShare n := by
  unfold DRFSorter.calculateShare
  rw [hres, halloc]

theorem foldInsert_sorted (f : String → ℚ) (cs : List Client) :
    ∀ acc, SortedClients acc →
      SortedClients (cs.foldl (fun t c => setInsert t ⟨c.name, f c.name⟩) acc) := by
  induction cs with
  | nil => intro acc h; exact h
  | cons c cs ih =>
      intro acc h
      exact ih _ (setInsert_sorted _ h)

theorem foldInsert_mem (f : String → ℚ) (cs : List Client) :
    ∀ acc x, x ∈ cs.foldl (fun t c => setInsert t ⟨c.name, f c.name⟩) acc →
      x ∈ acc ∨ ∃ c ∈ cs, x = ⟨c.name, f c.name⟩ := by
  induction cs with
  | nil => intro acc x h; exact Or.inl h
  | cons c cs ih =>
      intro acc x h
      rcases ih _ x h with h1 | ⟨c', hc', he⟩
      · rcases mem_setInsert h1 with h2 | h2
        · exact Or.inr ⟨c, List.mem_cons_self _ _, h2⟩
        · exact Or.inl h2
      · exact Or.inr ⟨c', List.mem_cons_of_mem _ hc', he⟩

theorem foldInsert_names (f : String → ℚ) (cs : List Client) :
    ∀ acc, (acc.map Client.name ++ cs.map Client.name).Nodup →
      List.Perm
        ((cs.foldl (fun t c => setInsert t ⟨c.name, f c.name⟩) acc).map Client.name)
        (acc.map Client.name ++ cs.map Client.name) := by
  induction cs with
  | nil =>
      intro acc h
      rw [List.map_nil, List.append_nil]
      exact List.Perm.refl _
  | cons c cs ih =>
      intro acc h
      rw [List.map_cons]
      have hfresh : c.name ∉ acc.map Client.name := by
        intro hc
        have := List.Nodup.sublist
          (List.sublist_append_left _ (c.name :: cs.map Client.name)) h
        have hr : c.name ∈ acc.map Client.name ++ c.name :: cs.map Client.name :=
          List.mem_append_left _ hc
        have hd := List.disjoint_of_nodup_append h
        exact hd hc (List.mem_cons_self _ _)
      have hperm1 : List.Perm
          ((setInsert acc ⟨c.name, f c.name⟩).map Client.name)
          (c.name :: acc.map Client.name) := setInsert_names_perm hfresh
      have hmid : List.Perm
          (acc.map Client.name ++ c.name :: cs.map Client.name)
          (c.name :: (acc.map Client.name ++ cs.map Client.name)) :=
        List.perm_middle
      have hnodup' :
          ((setInsert acc ⟨c.name, f c.name⟩).map Client.name ++
            cs.map Client.name).Nodup := by
        have hp : List.Perm
            ((setInsert acc ⟨c.name, f c.name⟩).map Client.name ++
              cs.map Client.name)
            ((c.name :: acc.map Client.name) ++ cs.map Client.name) :=
          hperm1.append_right _
        have hq : List.Perm
            ((c.name :: acc.map Client.name) ++ cs.map Client.name)
            (acc.map Client.name ++ c.name :: cs.map Client.name) := by
          rw [List.cons_append]
          exact hmid.symm
        exact ((hp.trans hq).nodup_iff).mpr h
      have := ih (setInsert acc ⟨c.name, f c.name⟩) hnodup'
      refine this.trans ?_
      have hstep : List.Perm
          ((setInsert acc ⟨c.name, f c.name⟩).map Client.name ++ cs.map Client.name)
          ((c.name :: acc.map Client.name) ++ cs.map Client.name) :=
        hperm1.append_right _
      refine hstep.trans ?_
      rw [List.cons_append]
      exact hmid.symm

/-! ### The spec's name ordering is a total preorder with antisymmetry -/

instance (s : DRFSorter) : IsTrans String (keyLE s) where
  trans := by
    intro a b c h1 h2
    rcases h1 with h1 | ⟨h1e, h1n⟩
    · rcases h2 with h2 | ⟨h2e, _⟩
      · exact Or.inl (h1.trans h2)
      · exact Or.inl (h2e ▸ h1)
    · rcases h2 with h2 | ⟨h2e, h2n⟩
      · exact Or.inl (h1e ▸ h2)
      · exact Or.inr ⟨h1e.trans h2e, h1n.trans h2n⟩

instance (s : DRFSorter) : IsTotal String (keyLE s) where
  total := by
    intro a b
    rcases lt_trichotomy (specShare s a) (specShare s b) with h | h | h
    · exact Or.inl (Or.inl h)
    · rcases le_total a b with hn | hn
      · exact Or.inl (Or.inr ⟨h, hn⟩)
      · exact Or.inr (Or.inr ⟨h.symm, hn⟩)
    · exact Or.inr (Or.inl h)

instance (s : DRFSorter) : IsAntisymm String (keyLE s) where
  antisymm := by
    intro a b h1 h2
    rcases h1 with h1 | ⟨h1e, h1n⟩
    · rcases h2 with h2 | ⟨h2e, _⟩
      · exact absurd (h1.trans h2) (lt_irrefl _)
      · exact absurd h1 (h2e ▸ lt_irrefl _)
    · rcases h2 with h2 | ⟨h2e, h2n⟩
      · exact absurd h2 (h1e ▸ lt_irrefl _)
      · exact le_antisymm h1n h2n

/-- A comparator-sorted client list with accurate shares yields names
sorted under the spec's (share, name) order. -/
theorem sortedNames_of (s : DRFSorter) (cs : List Client)
    (hs : SortedClients cs)
    (hacc : ∀ c ∈ cs, c.share = s.calculateShare c.name) :
    (cs.map Client.name).Sorted (keyLE s) := by
  rw [List.Sorted, List.pairwise_map]
  refine hs.imp_of_mem ?_
  intro a b ha hb hab
  rcases (cltb_iff a b).mp hab with h | ⟨he, hn⟩
  · exact Or.inl (by
      rw [← calculateShare_eq_specShare, ← calculateShare_eq_specShare,
        ← hacc a ha, ← hacc b hb]
      exact h)
  · exact Or.inr ⟨by
      rw [← calculateShare_eq_specShare, ← calculateShare_eq_specShare,
        ← hacc a ha, ← hacc b hb]
      exact he, strLt_le hn⟩

/-! ### Projection lemmas for the sorter operations -/

theorem add_clients (s : DRFSorter) (n : String) :
    (s.add n).clients = setInsert s.clients ⟨n, 0⟩ := rfl

theorem add_allocations (s : DRFSorter) (n : String) :
    (s.add n).allocations = aset s.allocations n [] := rfl

theorem add_resources_eq (s : DRFSorter) (n : String) :
    (s.add n).resources = s.resources := rfl

theorem add_dirty (s : DRFSorter) (n : String) : (s.add n).dirty = s.dirty := rfl

theorem remove_clients (s : DRFSorter) (n : String) :
    (s.remove n).clients = eraseFirstName s.clients n := rfl

theorem remove_allocations (s : DRFSorter) (n : String) :
    (s.remove n).allocations = aerase s.allocations n := rfl

theorem deactivate_clients (s : DRFSorter) (n : String) :
    (s.deactivate n).clients = eraseFirstName s.clients n := rfl

theorem sort_snd_of_dirty (s : DRFSorter) (hd : s.dirty = true) :
    s.sort.2 = { s with clients := s.clients.foldl (fun t c => setInsert t ⟨c.name, s.calculateShare c.name⟩) [] } := by
  unfold DRFSorter.sort
  rw [if_pos hd]

theorem sort_snd_of_clean (s : DRFSorter) (hd : s.dirty = false) :
    s.sort.2 = s := by
  unfold DRFSorter.sort
  rw [if_neg (by rw [hd]; exact Bool.false_ne_true)]

theorem sort_fst_eq (s : DRFSorter) : s.sort.1 = s.sort.2.clients.map Client.name := by
  unfold DRFSorter.sort
  by_cases hd : s.dirty = true
  · rw [if_pos hd]
  · rw [if_neg hd]

/-! ### Well-formedness is preserved by every operation -/

theorem not_active_of_not_hasKey (s : DRFSorter) (n : String)
    (hkeys : ∀ c ∈ s.clients, ahasKey s.allocations c.name = true)
    (hfree : ahasKey s.allocations n = false) :
    n ∉ s.clients.map Client.name := by
  intro hc
  rcases List.mem_map.mp hc with ⟨c, hcm, hcn⟩
  have := hkeys c hcm
  rw [hcn, hfree] at this
  cases this

theorem name_ne_of_mem_erase (l : List Client) (n : String)
    (hnd : (l.map Client.name).Nodup) (c : Client)
    (hc : c ∈ eraseFirstName l n) : c.name ≠ n := by
  by_cases hmem : n ∈ l.map Client.name
  · have hperm := eraseFirstName_perm hmem
    have hn2 : (n :: (eraseFirstName l n).map Client.name).Nodup :=
      hperm.nodup_iff.mp hnd
    have hnotin := (List.nodup_cons.mp hn2).1
    intro he
    have hx : c.name ∈ (eraseFirstName l n).map Client.name :=
      List.mem_map_of_mem Client.name hc
    rw [he] at hx
    exact hnotin hx
  · rw [eraseFirstName_eq_of_not_mem hmem] at hc
    intro he
    have hx : c.name ∈ l.map Client.name := List.mem_map_of_mem Client.name hc
    rw [he] at hx
    exact hmem hx

theorem WF_add (s : DRFSorter) (n : String) (h : WF s)
    (hfree : ahasKey s.allocations n = false) : WF (s.add n) := by
  obtain ⟨hso, hnd, hkeys, hknd, hacc⟩ := h
  have hnotact : n ∉ s.clients.map Client.name :=
    not_active_of_not_hasKey s n hkeys hfree
  refine ⟨?_, ?_, ?_, ?_, ?_⟩
  · show SortedClients (setInsert s.clients ⟨n, 0⟩)
    exact setInsert_sorted _ hso
  · show NodupNames (setInsert s.clients ⟨n, 0⟩)
    unfold NodupNames
    exact (setInsert_names_perm hnotact).nodup_iff.mpr
      (List.nodup_cons.mpr ⟨hnotact, hnd⟩)
  · intro c hc
    have hc' : c ∈ setInsert s.clients ⟨n, 0⟩ := hc
    show ahasKey (aset s.allocations n []) c.name = true
    rcases mem_setInsert hc' with h1 | h1
    · rw [h1]
      exact ahasKey_aset_self _ _ _
    · have hne : c.name ≠ n := fun he =>
        hnotact (by rw [← he]; exact List.mem_map_of_mem Client.name h1)
      rw [ahasKey_aset_ne _ _ _ _ hne]
      exact hkeys c h1
  · show ((aset s.allocations n []).map Prod.fst).Nodup
    exact aset_keys_nodup _ _ _ hknd
  · intro hdf c hc
    have hdf' : s.dirty = false := hdf
    have hc' : c ∈ setInsert s.clients ⟨n, 0⟩ := hc
    rcases mem_setInsert hc' with h1 | h1
    · rw [h1]
      show (0:ℚ) = (s.add n).calculateShare n
      unfold DRFSorter.calculateShare
      show (0:ℚ) = shareOf s.resources (alookupD (aset s.allocations n []) n)
      rw [alookupD_aset_self]
      exact (shareOf_alloc_nil _).symm
    · have hne : c.name ≠ n := fun he =>
        hnotact (by rw [← he]; exact List.mem_map_of_mem Client.name h1)
      rw [hacc hdf' c h1]
      have halloc : alookupD (s.add n).allocations c.name =
          alookupD s.allocations c.name := by
        show alookupD (aset s.allocations n []) c.name = _
        exact alookupD_aset_ne _ _ _ _ hne
      exact (calculateShare_congr s (s.add n) c.name rfl halloc).symm

theorem WF_remove (s : DRFSorter) (n : String) (h : WF s) : WF (s.remove n) := by
  obtain ⟨hso, hnd, hkeys, hknd, hacc⟩ := h
  refine ⟨?_, ?_, ?_, ?_, ?_⟩
  · show SortedClients (eraseFirstName s.clients n)
    exact List.Pairwise.sublist (eraseFirstName_sublist _ _) hso
  · show NodupNames (eraseFirstName s.clients n)
    exact List.Nodup.sublist ((eraseFirstName_sublist _ _).map _) hnd
  · intro c hc
    have hc' : c ∈ eraseFirstName s.clients n := hc
    have hne := name_ne_of_mem_erase s.clients n hnd c hc'
    show ahasKey (aerase s.allocations n) c.name = true
    rw [ahasKey_aerase_ne _ _ _ hne]
    exact hkeys c ((eraseFirstName_sublist _ _).subset hc')
  · show ((aerase s.allocations n).map Prod.fst).Nodup
    exact List.Nodup.sublist ((aerase_sublist _ _).map _) hknd
  · intro hdf c hc
    have hdf' : s.dirty = false := hdf
    have hc' : c ∈ eraseFirstName s.clients n := hc
    have hne := name_ne_of_mem_erase s.clients n hnd c hc'
    rw [hacc hdf' c ((eraseFirstName_sublist _ _).subset hc')]
    have halloc : alookupD (s.remove n).allocations c.name =
        alookupD s.allocations c.name := by
      show alookupD (aerase s.allocations n) c.name = _
      exact alookupD_aerase_ne _ _ _ hne
    exact (calculateShare_congr s (s.remove n) c.name rfl halloc).symm

theorem WF_deactivate (s : DRFSorter) (n : String) (h : WF s) :
    WF (s.deactivate n) := by
  obtain ⟨hso, hnd, hkeys, hknd, hacc⟩ := h
  refine ⟨?_, ?_, ?_, hknd, ?_⟩
  · show SortedClients (eraseFirstName s.clients n)
    exact List.Pairwise.sublist (eraseFirstName_sublist _ _) hso
  · show NodupNames (eraseFirstName s.clients n)
    exact List.Nodup.sublist ((eraseFirstName_sublist _ _).map _) hnd
  · intro c hc
    have hc' : c ∈ eraseFirstName s.clients n := hc
    exact hkeys c ((eraseFirstName_sublist _ _).subset hc')
  · intro hdf c hc
    have hc' : c ∈ eraseFirstName s.clients n := hc
    exact hacc hdf c ((eraseFirstName_sublist _ _).subset hc')

theorem WF_activate (s : DRFSorter) (n : String) (s' : DRFSorter) (h : WF s)
    (hdis : n ∉ s.clients.map Client.name)
    (hstep : s.activate n = some s') : WF s' := by
  obtain ⟨hso, hnd, hkeys, hknd, hacc⟩ := h
  unfold DRFSorter.activate at hstep
  by_cases hk : ahasKey s.allocations n = true
  · rw [if_pos hk] at hstep
    have hs' : { s with clients := setInsert s.clients ⟨n, s.calculateShare n⟩ }
        = s' := by
      injection hstep
    subst hs'
    refine ⟨?_, ?_, ?_, hknd, ?_⟩
    · show SortedClients (setInsert s.clients ⟨n, s.calculateShare n⟩)
      exact setInsert_sorted _ hso
    · show NodupNames (setInsert s.clients ⟨n, s.calculateShare n⟩)
      unfold NodupNames
      exact (setInsert_names_perm hdis).nodup_iff.mpr
        (List.nodup_cons.mpr ⟨hdis, hnd⟩)
    · intro c hc
      have hc' : c ∈ setInsert s.clients ⟨n, s.calculateShare n⟩ := hc
      rcases mem_setInsert hc' with h1 | h1
      · rw [h1]
        exact hk
      · exact hkeys c h1
    · intro hdf c hc
      have hdf' : s.dirty = false := hdf
      have hc' : c ∈ setInsert s.clients ⟨n, s.calculateShare n⟩ := hc
      rcases mem_setInsert hc' with h1 | h1
      · rw [h1]
        show s.calculateShare n = _
        exact (calculateShare_congr s _ n rfl rfl).symm
      · rw [hacc hdf' c h1]
        exact (calculateShare_congr s _ c.name rfl rfl).symm
  · rw [if_neg hk] at hstep
    cases hstep

theorem WF_update_pre (u : DRFSorter) (n : String) (s' : DRFSorter)
    (hso : SortedClients u.clients) (hnd : NodupNames u.clients)
    (hkeys : ∀ c ∈ u.clients, ahasKey u.allocations c.name = true)
    (hkn : ahasKey u.allocations n = true)
    (hknd : (u.allocations.map Prod.fst).Nodup)
    (hacc : u.dirty = false → ∀ c ∈ u.clients, c.name ≠ n →
      c.share = u.calculateShare c.name)
    (hstep : u.update n = some s') : WF s' := by
  unfold DRFSorter.update at hstep
  cases hfind : findClient u.clients n with
  | none => rw [hfind] at hstep; cases hstep
  | some c0 =>
      rw [hfind] at hstep
      have hs' : { u with clients := setInsert (eraseFirstName u.clients n) ⟨n, u.calculateShare n⟩ } = s' := by
        injection hstep
      subst hs'
      have hmem : n ∈ u.clients.map Client.name := by
        rw [← findClient_isSome_iff, hfind]
        rfl
      have hnotin : n ∉ (eraseFirstName u.clients n).map Client.name := by
        have hperm := eraseFirstName_perm hmem
        have hn2 : (n :: (eraseFirstName u.clients n).map Client.name).Nodup :=
          hperm.nodup_iff.mp hnd
        exact (List.nodup_cons.mp hn2).1
      refine ⟨?_, ?_, ?_, hknd, ?_⟩
      · show SortedClients
          (setInsert (eraseFirstName u.clients n) ⟨n, u.calculateShare n⟩)
        exact setInsert_sorted _
          (List.Pairwise.sublist (eraseFirstName_sublist _ _) hso)
      · show NodupNames
          (setInsert (eraseFirstName u.clients n) ⟨n, u.calculateShare n⟩)
        unfold NodupNames
        exact (setInsert_names_perm hnotin).nodup_iff.mpr (List.nodup_cons.mpr
          ⟨hnotin, List.Nodup.sublist ((eraseFirstName_sublist _ _).map _) hnd⟩)
      · intro c hc
        have hc' : c ∈ setInsert (eraseFirstName u.clients n)
            ⟨n, u.calculateShare n⟩ := hc
        rcases mem_setInsert hc' with h1 | h1
        · rw [h1]
          exact hkn
        · exact hkeys c ((eraseFirstName_sublist _ _).subset h1)
      · intro hdf c hc
        have hdf' : u.dirty = false := hdf
        have hc' : c ∈ setInsert (eraseFirstName u.clients n)
            ⟨n, u.calculateShare n⟩ := hc
        rcases mem_setInsert hc' with h1 | h1
        · rw [h1]
          show u.calculateShare n = _
          exact (calculateShare_congr u _ n rfl rfl).symm
        · have hne := name_ne_of_mem_erase u.clients n hnd c h1
          rw [hacc hdf' c ((eraseFirstName_sublist _ _).subset h1) hne]
          exact (calculateShare_congr u _ c.name rfl rfl).symm

theorem WF_assignAlloc (s : DRFSorter) (n : String) (A : Resources)
    (s' : DRFSorter) (h : WF s)
    (hstep : (if s.dirty = true
              then some { s with allocations := aset s.allocations n A }
              else DRFSorter.update
                { s with allocations := aset s.allocations n A } n) = some s') :
    WF s' := by
  obtain ⟨hso, hnd, hkeys, hknd, hacc⟩ := h
  by_cases hd : s.dirty = true
  · rw [if_pos hd] at hstep
    have hs' : { s with allocations := aset s.allocations n A } = s' := by
      injection hstep
    subst hs'
    refine ⟨hso, hnd, ?_, ?_, ?_⟩
    · intro c hc
      show ahasKey (aset s.allocations n A) c.name = true
      by_cases hcn : c.name = n
      · rw [hcn]
        exact ahasKey_aset_self _ _ _
      · rw [ahasKey_aset_ne _ _ _ _ hcn]
        exact hkeys c hc
    · show ((aset s.allocations n A).map Prod.fst).Nodup
      exact aset_keys_nodup _ _ _ hknd
    · intro hdf
      have hdf' : s.dirty = false := hdf
      rw [hd] at hdf'
      cases hdf'
  · rw [if_neg hd] at hstep
    have hd' : s.dirty = false := by simpa using hd
    refine WF_update_pre { s with allocations := aset s.allocations n A }
      n s' hso hnd ?_ ?_ ?_ ?_ hstep
    · intro c hc
      show ahasKey (aset s.allocations n A) c.name = true
      by_cases hcn : c.name = n
      · rw [hcn]
        exact ahasKey_aset_self _ _ _
      · rw [ahasKey_aset_ne _ _ _ _ hcn]
        exact hkeys c hc
    · show ahasKey (aset s.allocations n A) n = true
      exact ahasKey_aset_self _ _ _
    · show ((aset s.allocations n A).map Prod.fst).Nodup
      exact aset_keys_nodup _ _ _ hknd
    · intro _ c hc hne
      rw [hacc hd' c hc]
      have halloc :
          alookupD ({ s with allocations := aset s.allocations n A }).allocations
            c.name = alookupD s.allocations c.name := by
        show alookupD (aset s.allocations n A) c.name = _
        exact alookupD_aset_ne _ _ _ _ hne
      exact (calculateShare_congr s
        { s with allocations := aset s.allocations n A } c.name rfl halloc).symm

theorem WF_allocated (s : DRFSorter) (n : String) (r : Resources)
    (s' : DRFSorter) (h : WF s) (hstep : s.allocated n r = some s') : WF s' :=
  WF_assignAlloc s n (radd (alookupD s.allocations n) r) s' h hstep

theorem WF_unallocated (s : DRFSorter) (n : String) (r : Resources)
    (s' : DRFSorter) (h : WF s) (hstep : s.unallocated n r = some s') : WF s' :=
  WF_assignAlloc s n (rsub (alookupD s.allocations n) r) s' h hstep

theorem WF_addResources (s : DRFSorter) (r : Resources) (h : WF s) :
    WF (s.addResources r) := by
  obtain ⟨hso, hnd, hkeys, hknd, _⟩ := h
  refine ⟨hso, hnd, hkeys, hknd, ?_⟩
  intro hdf
  have hdf' : true = false := hdf
  cases hdf'

theorem WF_removeResources (s : DRFSorter) (r : Resources) (h : WF s) :
    WF (s.removeResources r) := by
  obtain ⟨hso, hnd, hkeys, hknd, _⟩ := h
  refine ⟨hso, hnd, hkeys, hknd, ?_⟩
  intro hdf
  have hdf' : true = false := hdf
  cases hdf'

theorem WF_sort (s : DRFSorter) (h : WF s) : WF s.sort.2 := by
  obtain ⟨hso, hnd, hkeys, hknd, hacc⟩ := h
  by_cases hd : s.dirty = true
  · rw [sort_snd_of_dirty s hd]
    refine ⟨?_, ?_, ?_, hknd, ?_⟩
    · show SortedClients (s.clients.foldl
        (fun t c => setInsert t ⟨c.name, s.calculateShare c.name⟩) [])
      exact foldInsert_sorted _ _ [] List.Pairwise.nil
    · show NodupNames (s.clients.foldl
        (fun t c => setInsert t ⟨c.name, s.calculateShare c.name⟩) [])
      unfold NodupNames
      have hperm := foldInsert_names (fun m => s.calculateShare m) s.clients []
        (by simpa using hnd)
      have hperm' : List.Perm
          ((s.clients.foldl
            (fun t c => setInsert t ⟨c.name, s.calculateShare c.name⟩) []).map
              Client.name)
          (s.clients.map Client.name) := by simpa using hperm
      exact hperm'.nodup_iff.mpr hnd
    · intro c hc
      have hc' : c ∈ s.clients.foldl
          (fun t c => setInsert t ⟨c.name, s.calculateShare c.name⟩) [] := hc
      rcases foldInsert_mem (fun m => s.calculateShare m) s.clients [] c hc' with
        h1 | ⟨c', hc'', he⟩
      · cases h1
      · rw [he]
        exact hkeys c' hc''
    · intro hdf
      have hdf' : s.dirty = false := hdf
      rw [hd] at hdf'
      cases hdf'
  · have hd' : s.dirty = false := by simpa using hd
    rw [sort_snd_of_clean s hd']
    exact ⟨hso, hnd, hkeys, hknd, hacc⟩

/-- `sort()` returns the spec-side answer: the active names ordered by
(share, name), with shares given by `calculateShare`. -/
theorem sort_names (s : DRFSorter) (h : WF s) : s.sort.1 = specSortedNames s := by
  obtain ⟨hso, hnd, hkeys, hknd, hacc⟩ := h
  rw [sort_fst_eq]
  unfold specSortedNames activeNames
  by_cases hd : s.dirty = true
  · rw [sort_snd_of_dirty s hd]
    show (s.clients.foldl
        (fun t c => setInsert t ⟨c.name, s.calculateShare c.name⟩) []).map
          Client.name = _
    have hperm : List.Perm
        ((s.clients.foldl
          (fun t c => setInsert t ⟨c.name, s.calculateShare c.name⟩) []).map
            Client.name)
        (s.clients.map Client.name) := by
      have := foldInsert_names (fun m => s.calculateShare m) s.clients []
        (by simpa using hnd)
      simpa using this
    have hsorted :
        ((s.clients.foldl
          (fun t c => setInsert t ⟨c.name, s.calculateShare c.name⟩) []).map
            Client.name).Sorted (keyLE s) := by
      apply sortedNames_of s _ (foldInsert_sorted _ _ [] List.Pairwise.nil)
      intro c hc
      rcases foldInsert_mem (fun m => s.calculateShare m) s.clients [] c hc with
        h1 | ⟨c', hc', he⟩
      · cases h1
      · rw [he]
    exact List.eq_of_perm_of_sorted
      (hperm.trans (List.perm_insertionSort _ _).symm) hsorted
      (List.sorted_insertionSort _ _)
  · have hd' : s.dirty = false := by simpa using hd
    rw [sort_snd_of_clean s hd']
    exact List.eq_of_perm_of_sorted (List.perm_insertionSort _ _).symm
      (sortedNames_of s s.clients hso (hacc hd'))
      (List.sorted_insertionSort _ _)

/-! ### Step-level preservation and auxiliary facts -/

theorem WF_stepA (s : DRFSorter) (op : AOp) (s' : DRFSorter) (h : WF s)
    (hok : okOp s op) (hstep : stepA op s = some s') : WF s' := by
  cases op with
  | addC n =>
      have h1 : s.add n = s' := by injection hstep
      rw [← h1]
      exact WF_add s n h hok
  | removeC n =>
      have h1 : s.remove n = s' := by injection hstep
      rw [← h1]
      exact WF_remove s n h
  | activateC n => exact WF_activate s n s' h hok hstep
  | deactivateC n =>
      have h1 : s.deactivate n = s' := by injection hstep
      rw [← h1]
      exact WF_deactivate s n h
  | allocC n r => exact WF_allocated s n r s' h hstep
  | unallocC n r => exact WF_unallocated s n r s' h hstep
  | addResC r =>
      have h1 : s.addResources r = s' := by injection hstep
      rw [← h1]
      exact WF_addResources s r h
  | removeResC r =>
      have h1 : s.removeResources r = s' := by injection hstep
      rw [← h1]
      exact WF_removeResources s r h
  | sortC =>
      have h1 : s.sort.2 = s' := by injection hstep
      rw [← h1]
      exact WF_sort s h

theorem WF_stepS (op : SOp) (s s' : DRFSorter) (h : WF s)
    (hstep : stepS op s = some s') : WF s' := by
  cases op with
  | alloc n r => exact WF_allocated s n r s' h hstep
  | unalloc n r => exact WF_unallocated s n r s' h hstep
  | addR r =>
      have h1 : s.addResources r = s' := by injection hstep
      rw [← h1]
      exact WF_addResources s r h
  | removeR r =>
      have h1 : s.removeResources r = s' := by injection hstep
      rw [← h1]
      exact WF_removeResources s r h

theorem WF_runOps (ops : List SOp) (s s' : DRFSorter) (h : WF s)
    (hrun : runOps ops s = some s') : WF s' := by
  induction ops generalizing s with
  | nil =>
      have h1 : s = s' := by injection hrun
      rw [← h1]
      exact h
  | cons op rest ih =>
      unfold runOps at hrun
      cases hst : stepS op s with
      | none => rw [hst] at hrun; cases hrun
      | some s1 =>
          rw [hst] at hrun
          exact ih s1 (WF_stepS op s s1 h hst) hrun

theorem update_isSome (u : DRFSorter) (n : String) :
    (u.update n).isSome = (findClient u.clients n).isSome := by
  unfold DRFSorter.update
  cases hfind : findClient u.clients n <;> simp [hfind]

theorem update_allocations (u : DRFSorter) (n : String) (s' : DRFSorter)
    (hstep : u.update n = some s') : s'.allocations = u.allocations := by
  unfold DRFSorter.update at hstep
  cases hfind : findClient u.clients n with
  | none => rw [hfind] at hstep; cases hstep
  | some c0 =>
      rw [hfind] at hstep
      have h1 : { u with clients := setInsert (eraseFirstName u.clients n) ⟨n, u.calculateShare n⟩ } = s' := by
        injection hstep
      rw [← h1]

theorem assign_isSome (s : DRFSorter) (n : String) (A : Resources) :
    ((if s.dirty = true
      then some { s with allocations := aset s.allocations n A }
      else DRFSorter.update { s with allocations := aset s.allocations n A } n).isSome
        = true)
    ↔ (s.dirty = true ∨ n ∈ activeNames s) := by
  by_cases hd : s.dirty = true
  · rw [if_pos hd]
    constructor
    · intro _
      exact Or.inl hd
    · intro _
      rfl
  · rw [if_neg hd]
    rw [update_isSome]
    have hcl : findClient ({ s with allocations := aset s.allocations n A }).clients n
        = findClient s.clients n := rfl
    rw [hcl, findClient_isSome_iff]
    constructor
    · intro hmem
      exact Or.inr hmem
    · intro hor
      rcases hor with h1 | h1
      · exact absurd h1 hd
      · exact h1

theorem assign_allocations (s : DRFSorter) (n : String) (A : Resources)
    (s' : DRFSorter)
    (hstep : (if s.dirty = true
              then some { s with allocations := aset s.allocations n A }
              else DRFSorter.update
                { s with allocations := aset s.allocations n A } n) = some s') :
    s'.allocations = aset s.allocations n A := by
  by_cases hd : s.dirty = true
  · rw [if_pos hd] at hstep
    have h1 : { s with allocations := aset s.allocations n A } = s' := by
      injection hstep
    rw [← h1]
  · rw [if_neg hd] at hstep
    have h2 := update_allocations _ n s' hstep
    rw [h2]

theorem setInsert_names_perm_of_not_mem {l : List Client} {c : Client}
    (h : c ∉ l) :
    List.Perm ((setInsert l c).map Client.name) (c.name :: l.map Client.name) := by
  induction l with
  | nil => exact List.Perm.refl _
  | cons x xs ih =>
      have hcx : c ≠ x := fun he => h (he ▸ List.mem_cons_self x xs)
      have hcs : c ∉ xs := fun he => h (List.mem_cons_of_mem x he)
      unfold setInsert
      by_cases h1 : cltb c x = true
      · simp only [h1, if_true]
        exact List.Perm.refl _
      · simp only [h1, if_false, Bool.false_eq_true]
        by_cases h2 : cltb x c = true
        · simp only [h2, if_true]
          rw [List.map_cons, List.map_cons]
          exact ((ih hcs).cons x.name).trans (List.Perm.swap _ _ _)
        · have heq : x = c := eq_of_cltb_false
            (Bool.eq_false_iff.mpr h2) (Bool.eq_false_iff.mpr h1)
          exact absurd heq.symm hcx

theorem sort_snd_resources (s : DRFSorter) : s.sort.2.resources = s.resources := by
  by_cases hd : s.dirty = true
  · rw [sort_snd_of_dirty s hd]
  · rw [sort_snd_of_clean s (by simpa using hd)]

theorem sort_snd_allocations (s : DRFSorter) :
    s.sort.2.allocations = s.allocations := by
  by_cases hd : s.dirty = true
  · rw [sort_snd_of_dirty s hd]
  · rw [sort_snd_of_clean s (by simpa using hd)]

theorem sort_specShare (s : DRFSorter) (n : String) :
    specShare s.sort.2 n = specShare s n := by
  unfold specShare DRFSorter.allocation
  rw [sort_snd_resources, sort_snd_allocations]

theorem sort_activeNames_perm (s : DRFSorter) (hnd : NodupNames s.clients) :
    List.Perm (activeNames s.sort.2) (activeNames s) := by
  by_cases hd : s.dirty = true
  · rw [sort_snd_of_dirty s hd]
    show List.Perm
      ((s.clients.foldl
        (fun t c => setInsert t ⟨c.name, s.calculateShare c.name⟩) []).map
          Client.name)
      (s.clients.map Client.name)
    have := foldInsert_names (fun m => s.calculateShare m) s.clients []
      (by simpa using hnd)
    simpa using this
  · rw [sort_snd_of_clean s (by simpa using hd)]

/-! ### Executor lifecycle invariant -/

theorem execStep_terminated (x : ExecutorRec) (e : ExecEvent)
    (h : x.state = ExecState.TERMINATED → x.processExited = true) :
    (execStep x e).state = ExecState.TERMINATED →
      (execStep x e).processExited = true := by
  cases e with
  | registerE =>
      simp only [execStep]
      by_cases hx : x.state = ExecState.REGISTERING
      · rw [if_pos hx]
        intro hc
        exact ExecState.noConfusion hc
      · rw [if_neg hx]
        exact h
  | launchTask t =>
      simp only [execStep]
      by_cases hx1 : x.state = ExecState.REGISTERING
      · rw [if_pos hx1]
        exact h
      · rw [if_neg hx1]
        by_cases hx2 : x.state = ExecState.RUNNING
        · rw [if_pos hx2]
          exact h
        · rw [if_neg hx2]
          exact h
  | terminateTask t =>
      simp only [execStep]
      by_cases hx : t ∈ x.launchedTasks
      · rw [if_pos hx]
        exact h
      · rw [if_neg hx]
        exact h
  | ackTask t =>
      simp only [execStep]
      by_cases hx : t ∈ x.terminatedTasks
      · rw [if_pos hx]
        exact h
      · rw [if_neg hx]
        exact h
  | shutdownE =>
      simp only [execStep]
      by_cases hx : x.state = ExecState.REGISTERING ∨ x.state = ExecState.RUNNING
      · rw [if_pos hx]
        intro hc
        exact ExecState.noConfusion hc
      · rw [if_neg hx]
        exact h
  | exitE =>
      simp only [execStep]
      by_cases hx : x.state = ExecState.TERMINATED
      · rw [if_pos hx]
        exact h
      · rw [if_neg hx]
        intro _
        rfl

theorem execRun_terminated (evs : List ExecEvent) :
    (execRun evs).state = ExecState.TERMINATED →
      (execRun evs).processExited = true := by
  unfold execRun
  have hgen : ∀ (l : List ExecEvent) (x : ExecutorRec),
      (x.state = ExecState.TERMINATED → x.processExited = true) →
      ((l.foldl execStep x).state = ExecState.TERMINATED →
        (l.foldl execStep x).processExited = true) := by
    intro l
    induction l with
    | nil => intro x hx; exact hx
    | cons e rest ih =>
        intro x hx
        exact ih (execStep x e) (execStep_terminated x e hx)
  exact hgen evs execInit (fun hc => ExecState.noConfusion hc)

/-! ## Claim theorems -/

/-- C1: for every sorter state and client, `calculateShare` equals the
maximum, over the scalar resources of the total pool with strictly
positive total, of the client's scalar allocation divided by the total;
non-scalar resources contribute nothing and a client with no allocation
entry has share 0. -/
theorem claim1_share (s : DRFSorter) (n : String) :
    s.calculateShare n = specShare s n ∧
    (ahasKey s.allocations n = false → s.calculateShare n = 0) := by
  refine ⟨calculateShare_eq_specShare s n, ?_⟩
  intro hfree
  unfold DRFSorter.calculateShare
  rw [alookupD_of_not_hasKey _ _ hfree]
  exact shareOf_alloc_nil _

/-- Witness for C1 at a concrete state with an unknown client. -/
theorem claim1_witness :
    DRFSorter.calculateShare c1s "b" = specShare c1s "b" ∧
    DRFSorter.calculateShare c1s "b" = 0 :=
  ⟨(claim1_share c1s "b").1, (claim1_share c1s "b").2 (by decide)⟩

/-- C2: after every sequence of `allocated` / `unallocated` and
`add` / `remove` of total resources from a well-formed state, `sort()`
returns exactly the names of the active clients, ordered by share
ascending with ties broken by name ascending, the shares being those of
`calculateShare` — the same answer whether share updates were applied
eagerly or deferred through the dirty flag. -/
theorem claim2_sort_deferred (s : DRFSorter) (ops : List SOp) (s' : DRFSorter)
    (h : WF s) (hrun : runOps ops s = some s') :
    s'.sort.1 = specSortedNames s' :=
  sort_names s' (WF_runOps ops s s' h hrun)

/-- Witness for C2 on a concrete run mixing allocation and a total-pool
change. -/
theorem claim2_witness :
    runOps c2ops c2start = some c2end ∧
    c2end.sort.1 = specSortedNames c2end :=
  ⟨by decide, claim2_sort_deferred c2start c2ops c2end (by decide) (by decide)⟩

/-- C3 as stated is false: `add(name)` on a known name resets
`allocations[name]` to the empty bundle (drf_sorter.cpp:51), so the
allocations map changes. -/
theorem claim3_cex :
    runA [AOp.addC "a", AOp.allocC "a" (rcpus 1)] DRFSorter.empty = some c3mid ∧
    DRFSorter.contains c3mid "a" = true ∧
    (c3mid.add "a").allocation "a" ≠ c3mid.allocation "a" := by decide

/-- C3 amended: calling `add(name)` when the name is already known
leaves the total pool and the dirty flag unchanged, resets
`allocations[name]` to the empty bundle, and leaves the sorted set
unchanged exactly when it already contains the entry `(name, 0)`
(otherwise that entry is inserted, which can duplicate the name). -/
theorem claim3_add_known (s : DRFSorter) (n : String) (h : WF s)
    (_hknown : ahasKey s.allocations n = true) :
    (s.add n).resources = s.resources ∧ (s.add n).dirty = s.dirty ∧
    (s.add n).allocation n = [] ∧
    ((⟨n, 0⟩ : Client) ∈ s.clients → (s.add n).clients = s.clients) ∧
    ((⟨n, 0⟩ : Client) ∉ s.clients →
      List.Perm ((s.add n).clients.map Client.name)
        (n :: s.clients.map Client.name)) := by
  obtain ⟨hso, _, _, _, _⟩ := h
  refine ⟨rfl, rfl, ?_, ?_, ?_⟩
  · show alookupD (aset s.allocations n []) n = []
    exact alookupD_aset_self _ _ _
  · intro hmem
    show setInsert s.clients ⟨n, 0⟩ = s.clients
    exact setInsert_eq_of_mem hso hmem
  · intro hnmem
    show List.Perm ((setInsert s.clients ⟨n, 0⟩).map Client.name)
      (n :: s.clients.map Client.name)
    exact setInsert_names_perm_of_not_mem hnmem

/-- Witness for C3's amended statement at a concrete known client. -/
theorem claim3_witness :
    (c3mid.add "a").allocation "a" = [] ∧
    (c3mid.add "a").clients = c3mid.clients :=
  ⟨(claim3_add_known c3mid "a" (by decide) (by decide)).2.2.1,
   (claim3_add_known c3mid "a" (by decide) (by decide)).2.2.2.1 (by decide)⟩

/-- C4 as stated is false: a reachable sequence of operations leaves two
entries named "a" in the sorted set (stale-share entry plus the fresh
`(a, 0)` entry inserted by a second `add`). -/
theorem claim4_cex :
    runA [AOp.addResC (rcpus 10), AOp.addC "a", AOp.allocC "a" (rcpus 1),
      AOp.sortC, AOp.addC "a"] DRFSorter.empty = some c4end ∧
    ¬ NodupNames c4end.clients := by
  constructor
  · norm_num [runA, stepA, DRFSorter.addResources, DRFSorter.add,
      DRFSorter.allocated, DRFSorter.update, DRFSorter.sort,
      DRFSorter.calculateShare, shareOf, shareStep, radd, addOne, rsub, subOne,
      sameKey, RValue.combine, RValue.subv, RValue.kind, DRFSorter.empty, c4end,
      rcpus, aset, alookupD, findClient, List.find?, keyMatch, getScalar,
      lookupV, RKind.zero, setInsert, eraseFirstName, cltb, strLt, strLtB,
      List.foldl]
  · norm_num [NodupNames, c4end, List.Nodup, List.pairwise_cons]

/-- C4 amended: after every sorter operation performed from a
well-formed state, provided `add` is only invoked for unknown names and
`activate` only for clients not currently in the sorted set, the sorted
set holds no two entries with the same name and every active client's
recorded share equals `calculateShare` unless the dirty flag is set. -/
theorem claim4_invariant (s : DRFSorter) (op : AOp) (s' : DRFSorter)
    (h : WF s) (hok : okOp s op) (hstep : stepA op s = some s') :
    NodupNames s'.clients ∧ (s'.dirty = false → SharesAccurate s') := by
  have h' := WF_stepA s op s' h hok hstep
  exact ⟨h'.2.1, h'.2.2.2.2⟩

/-- Witness for C4's amended statement at one concrete step. -/
theorem claim4_witness :
    NodupNames (DRFSorter.empty.add "a").clients ∧
    ((DRFSorter.empty.add "a").dirty = false →
      SharesAccurate (DRFSorter.empty.add "a")) :=
  claim4_invariant DRFSorter.empty (AOp.addC "a") (DRFSorter.empty.add "a")
    (by decide) (show ahasKey DRFSorter.empty.allocations "a" = false by decide)
    rfl

/-- C5 as stated is false: from the reachable state with client "a"
known, deactivated and the dirty flag clear, `allocated` fails (its
internal `update` erases `clients.end()`). -/
theorem claim5_cex :
    runA [AOp.addC "a", AOp.deactivateC "a"] DRFSorter.empty = some c5state ∧
    DRFSorter.contains c5state "a" = true ∧
    c5state.dirty = false ∧
    DRFSorter.allocated c5state "a" (rcpus 1) = none := by decide

/-- C5 amended: `allocated` / `unallocated` succeed exactly when the
dirty flag is set or the client is in the sorted set; `activate`
succeeds exactly when the name is a key of the allocations map; every
other operation is total. -/
theorem claim5_failures (s : DRFSorter) (n : String) (r : Resources) :
    ((s.allocated n r).isSome = true ↔ (s.dirty = true ∨ n ∈ activeNames s)) ∧
    ((s.unallocated n r).isSome = true ↔ (s.dirty = true ∨ n ∈ activeNames s)) ∧
    ((s.activate n).isSome = true ↔ ahasKey s.allocations n = true) ∧
    (stepA (AOp.addC n) s).isSome = true ∧
    (stepA (AOp.removeC n) s).isSome = true ∧
    (stepA (AOp.deactivateC n) s).isSome = true ∧
    (stepA (AOp.addResC r) s).isSome = true ∧
    (stepA (AOp.removeResC r) s).isSome = true ∧
    (stepA AOp.sortC s).isSome = true := by
  refine ⟨assign_isSome s n _, assign_isSome s n _, ?_, rfl, rfl, rfl, rfl, rfl,
    rfl⟩
  unfold DRFSorter.activate
  by_cases hk : ahasKey s.allocations n = true
  · rw [if_pos hk]
    exact ⟨fun _ => hk, fun _ => rfl⟩
  · rw [if_neg hk]
    constructor
    · intro hc
      cases hc
    · intro hc
      exact absurd hc hk

/-- C6: allocating a bundle and then unallocating it leaves the client's
allocation pointwise unchanged. -/
theorem claim6_roundtrip (s : DRFSorter) (c : String) (r : Resources)
    (s1 s2 : DRFSorter) (h1 : s.allocated c r = some s1)
    (h2 : s1.unallocated c r = some s2) :
    pweq (s2.allocation c) (s.allocation c) := by
  have e1 : s1.allocations =
      aset s.allocations c (radd (alookupD s.allocations c) r) :=
    assign_allocations s c _ s1 h1
  have e2 : s2.allocations =
      aset s1.allocations c (rsub (alookupD s1.allocations c) r) :=
    assign_allocations s1 c _ s2 h2
  have e3 : alookupD s1.allocations c = radd (alookupD s.allocations c) r := by
    rw [e1]
    exact alookupD_aset_self _ _ _
  unfold DRFSorter.allocation
  rw [e2, alookupD_aset_self, e3]
  exact radd_rsub_cancel _ _

/-- Witness for C6 on a concrete round trip. -/
theorem claim6_witness : pweq (c6s2.allocation "a") (c6s0.allocation "a") :=
  claim6_roundtrip c6s0 "a" (rcpus 2) c6s1 c6s2 (by decide)
    (by norm_num [DRFSorter.unallocated, DRFSorter.update, aset, alookupD, rsub,
      subOne, sameKey, RValue.subv, RValue.kind, findClient,
      DRFSorter.calculateShare, shareOf, eraseFirstName, setInsert, c6s1, c6s2,
      rcpus, List.find?, keyMatch])

/-- C7: from a well-formed state, `sort()` returns a permutation of
exactly the active client names, in the deterministic (share, name)
order, and calling `sort()` again with no mutation in between returns
the same list. -/
theorem claim7_sort (s : DRFSorter) (h : WF s) :
    List.Perm s.sort.1 (activeNames s) ∧
    s.sort.1.Sorted (keyLE s) ∧
    s.sort.2.sort.1 = s.sort.1 := by
  have hb := sort_names s h
  have hwf2 := WF_sort s h
  have hb2 := sort_names s.sort.2 hwf2
  refine ⟨?_, ?_, ?_⟩
  · rw [hb]
    exact List.perm_insertionSort _ _
  · rw [hb]
    exact List.sorted_insertionSort _ _
  · rw [hb2, hb]
    refine List.eq_of_perm_of_sorted (r := keyLE s) ?_ ?_ ?_
    · exact (List.perm_insertionSort _ _).trans
        ((sort_activeNames_perm s h.2.1).trans
          (List.perm_insertionSort _ _).symm)
    · refine List.Pairwise.imp ?_
        (List.sorted_insertionSort (keyLE s.sort.2) (activeNames s.sort.2))
      intro a b hab
      unfold keyLE at hab ⊢
      rw [sort_specShare, sort_specShare] at hab
      exact hab
    · exact List.sorted_insertionSort _ _

/-- Witness for C7 at a concrete well-formed state. -/
theorem claim7_witness :
    List.Perm c2start.sort.1 (activeNames c2start) ∧
    c2start.sort.1.Sorted (keyLE c2start) ∧
    c2start.sort.2.sort.1 = c2start.sort.1 :=
  claim7_sort c2start (by decide)

/-- C8 as stated is false: removing more than the pool holds succeeds,
changes the pool and drives it negative (drf_sorter.cpp:134-138 has no
underflow check). -/
theorem claim8_cex :
    runA [AOp.addResC (rcpus 1), AOp.removeResC (rcpus 2)] DRFSorter.empty =
      some c8end ∧
    getScalar c8end.resources "cpus" = -1 ∧
    c8end.resources ≠ (DRFSorter.empty.addResources (rcpus 1)).resources := by
  refine ⟨?_, by decide, by decide⟩
  norm_num [runA, stepA, DRFSorter.removeResources, DRFSorter.addResources, radd,
    addOne, rsub, subOne, sameKey, RValue.combine, RValue.subv, RValue.kind,
    DRFSorter.empty, c8end, rcpus]

/-- C8 amended: `remove(totalResources)` never fails: it always sets the
dirty flag and subtracts componentwise from the pool (pointwise an exact
subtraction on every component present in the pool), with no clamping,
so the pool can become negative. -/
theorem claim8_remove_total (s : DRFSorter) (r : Resources) :
    (s.removeResources r).dirty = true ∧
    (s.removeResources r).resources = rsub s.resources r ∧
    (∀ (n : String) (k : RKind), (∀ x ∈ r, keyPresent s.resources x = true) →
      lookupV (s.removeResources r).resources n k =
        (lookupV s.resources n k).subv (contribSum r n k)) := by
  refine ⟨rfl, rfl, ?_⟩
  intro n k hp
  show lookupV (rsub s.resources r) n k = _
  exact rsub_lookupV _ _ _ _ hp

/-- Witness for C8's amended statement at a concrete pool. -/
theorem claim8_witness :
    lookupV ((c8w.removeResources (rcpus 2)).resources) "cpus" RKind.SCALAR =
      (lookupV c8w.resources "cpus" RKind.SCALAR).subv
        (contribSum (rcpus 2) "cpus" RKind.SCALAR) :=
  (claim8_remove_total c8w (rcpus 2)).2.2 "cpus" RKind.SCALAR (by decide)

/-- C9 as stated is false: the executor reaches `TERMINATED` on process
exit even while a terminated task still awaits acknowledgement, exactly
as the `Executor::State` comment (slave.hpp:351) says. -/
theorem claim9_cex :
    (execRun [ExecEvent.launchTask "t", ExecEvent.registerE,
      ExecEvent.terminateTask "t", ExecEvent.exitE]).state =
        ExecState.TERMINATED ∧
    (execRun [ExecEvent.launchTask "t", ExecEvent.registerE,
      ExecEvent.terminateTask "t", ExecEvent.exitE]).terminatedTasks = ["t"] := by
  decide

/-- C9 amended: an executor record is in `TERMINATED` only when its
process has exited (possibly with terminated tasks still awaiting
acknowledgement); the record is removed and handed to the garbage
collector only when, additionally, `terminatedTasks` is empty. -/
theorem claim9_terminated (evs : List ExecEvent) :
    ((execRun evs).state = ExecState.TERMINATED →
      (execRun evs).processExited = true) ∧
    (cleanupEligible (execRun evs) → (execRun evs).terminatedTasks = []) :=
  ⟨execRun_terminated evs, fun hce => hce.2⟩

/-- Witness for C9's amended statement on concrete runs. -/
theorem claim9_witness :
    (execRun [ExecEvent.exitE]).processExited = true ∧
    (execRun [ExecEvent.exitE]).terminatedTasks = [] :=
  ⟨(claim9_terminated [ExecEvent.exitE]).1 (by decide),
   (claim9_terminated [ExecEvent.exitE]).2 ⟨by decide, by decide⟩⟩

/-- C10: `contains(name)` and `count()` read only the allocations map,
irrespective of the sorted set; a deactivated client stays contained and
counted, and `count()` can strictly exceed the length of `sort()`. -/
theorem claim10_contains_count (s : DRFSorter) (n : String) :
    (s.contains n = true ↔ n ∈ s.allocations.map Prod.fst) ∧
    s.count = (s.allocations.map Prod.fst).length ∧
    (s.deactivate n).contains n = s.contains n ∧
    (s.deactivate n).count = s.count ∧
    ∃ t : DRFSorter, t.sort.1.length < t.count := by
  refine ⟨?_, ?_, rfl, rfl, ?_⟩
  · unfold DRFSorter.contains ahasKey
    rw [List.any_eq_true]
    constructor
    · rintro ⟨p, hp, he⟩
      rw [List.mem_map]
      exact ⟨p, hp, beq_iff_eq.mp he⟩
    · intro hmem
      rcases List.mem_map.mp hmem with ⟨p, hp, he⟩
      exact ⟨p, hp, beq_iff_eq.mpr he⟩
  · unfold DRFSorter.count
    rw [List.length_map]
  · exact ⟨⟨[], [("z", [])], [], false⟩, by decide⟩

end Mesos
